import Mathlib

/-!
mysql-diff: the schema graph and the statement parser of `alternatives/dbdiff.go`.

A shallow embedding of the table collection of `dbdiff.go` (tables, foreign
keys, the depends-on / dependants maps, `AddTable`, `LinkAllTables`,
`RemoveTable`, `UnlinkTable`, `GetTablesInCreatableOrder`, `getOrderError`)
and of its statement parser (`NewTableFromQuery` and the builders it calls),
followed by theorems about them.

Conventions of the embedding.

* A Go `map[string]V` is a list of entries `(key, value)`; `range` visits the
  entries in list order (Go leaves the order open, so every list order is one
  of the orders the program may take). Lookup, store and delete are `mapGet`,
  `mapSet`, `mapDelete`.
* A `*Table` is an address (`Ptr`); the tables live in a `Heap`, and a
  function that mutates tables takes the heap and returns the new one.
* A Go call ends in one of two ways: it returns its values together with an
  `error` (nil or not), or it panics. This is the type `Result`.
* The maps of a `Table` that the graph operations work on (`Fields`, `Fks`,
  `LinkedTables`, `DependantTables`) and the map of a `TableCollection` are
  taken as made (non-nil), and the pointers stored in them as non-nil. Where
  the code itself declares a map and never makes it (`created` in the
  resolver; the maps of the `new(Table)`, `new(PrimaryKey)` and `new(Index)`
  of the parser), the map is nil and a store into it panics, as in Go.
* The source does not compile as it stands (undeclared names, unused
  variables, a missing `return`); each function is read statement by
  statement with the Go meaning of the statement, and the reading taken is
  said in the comment of the definition where there is a choice.
-/

namespace DbDiff

/-! ## Maps -/

/-- Lookup `m[k]` with its `ok` flag: `none` when the key is absent. -/
def mapGet {V : Type} : List (String × V) → String → Option V
  | [], _ => none
  | (k', v) :: rest, k => if k' = k then some v else mapGet rest k

/-- Store `m[k] = v`: the entry under `k` is overwritten, a new key is added. -/
def mapSet {V : Type} : List (String × V) → String → V → List (String × V)
  | [], k, v => [(k, v)]
  | (k', v') :: rest, k, v => if k' = k then (k, v) :: rest else (k', v') :: mapSet rest k v

/-- The builtin `delete(m, k)`. -/
def mapDelete {V : Type} (m : List (String × V)) (k : String) : List (String × V) :=
  m.filter (fun e => decide (e.1 ≠ k))

/-- The keys of a map, in visiting order. -/
def mapKeys {V : Type} (m : List (String × V)) : List String := m.map Prod.fst

/-- A map variable as Go declares it: `none` is the nil map, which reads as the
empty map and panics on a store. -/
abbrev GoMap (V : Type) := Option (List (String × V))

/-- Lookup in a possibly nil map. -/
def GoMap.get {V : Type} (m : GoMap V) (k : String) : Option V :=
  match m with
  | none => none
  | some l => mapGet l k

/-- The entries `range` visits in a possibly nil map. -/
def GoMap.entries {V : Type} (m : GoMap V) : List (String × V) :=
  match m with
  | none => []
  | some l => l

/-! ## Outcome of a call -/

/-- How a call ends: it returns `val` and an error (`none` is the nil error), or
it panics. -/
inductive Result (α : Type) where
  | ret (val : α) (err : Option String) : Result α
  | panic (msg : String) : Result α
deriving DecidableEq, Repr

/-- The error a call returned (`some none` is the nil error); `none` when it
panicked. -/
def Result.error {α : Type} : Result α → Option (Option String)
  | .ret _ err => some err
  | .panic _ => none

/-- The value a call returned; `none` when it panicked. -/
def Result.value {α : Type} : Result α → Option α
  | .ret val _ => some val
  | .panic _ => none

/-- The run-time panic of a store into a nil map. -/
def nilMapPanic : String := "assignment to entry in nil map"

/-- The run-time panic of a field access through a nil pointer. -/
def nilDerefPanic : String := "invalid memory address or nil pointer dereference"

/-- The run-time panic of an index outside a slice or string. -/
def indexPanic : String := "index out of range"

/-! ## Data model -/

/-- A table address. -/
abbrev Ptr := Nat

/-- The type `Field`. -/
structure Field where
  Name : String
  Datatype : String
  DefaultValue : String
  Attributes : String
  Nullable : Bool
  AutoIncrement : Bool
  IsPK : Bool
  Signed : Bool
deriving DecidableEq, Repr, Inhabited

/-- The type `PrimaryKey`. -/
structure PrimaryKey where
  Fields : GoMap Field
deriving DecidableEq, Repr, Inhabited

/-- The type `Index`. -/
structure Index where
  Name : String
  Unique : Bool
  Fields : GoMap Field
deriving DecidableEq, Repr, Inhabited

/-- The type `Fk`. `References` is the `*Table` it is linked to, `none` while
unlinked. An `Fk` object belongs to the one `Fks` map that holds it, so it is
kept by value inside its table. -/
structure Fk where
  Name : String
  KeyField : String
  ReferenceTable : String
  ReferenceField : String
  Constraints : List String
  References : Option Ptr
deriving DecidableEq, Repr, Inhabited

/-- The type `Table`. `LinkedTables` is the depends-on map, `DependantTables`
the dependants map. `Indexes` is written by the statement parser only and
keeps its nil state. -/
structure Table where
  Name : String
  CreateStmt : String
  Pk : PrimaryKey
  Fields : List (String × Field)
  Fks : List (String × Fk)
  Indexes : GoMap Index
  DependantTables : List (String × Ptr)
  LinkedTables : List (String × Ptr)
deriving DecidableEq, Repr, Inhabited

/-- The type `TableCollection`. -/
structure TableCollection where
  Tables : List (String × Ptr)
  Charset : String
  Name : String
deriving DecidableEq, Repr, Inhabited

/-- The tables in memory, by address. -/
abbrev Heap := Ptr → Table

/-- Write table `t` at address `p`. -/
def heapSet (h : Heap) (p : Ptr) (t : Table) : Heap :=
  fun q => if q = p then t else h q

/-! ## Error values -/

/-- The error of `AddTable` on a duplicate (DuplicateTable). -/
def errDuplicateTable (tName dbName : String) : String :=
  "Table " ++ tName ++ " already exists in DB " ++ dbName

/-- The error of `LinkAllTables` on an absent target table
(MissingReferencedTable). -/
def errMissingReferencedTable (refTable : String) : String :=
  "Unable to link schema, table " ++ refTable ++ " seems to be missing"

/-- The error of `LinkAllTables` on an absent target field
(DanglingFieldReference). -/
def errDanglingFieldReference (fkName refField tbl : String) : String :=
  "FK " ++ fkName ++ " invalid: " ++ refField ++ " does not exist in reference table " ++ tbl

/-- The error of `RemoveTableByName` on an absent table (UnknownTable). -/
def errUnknownTable (tName dbName : String) : String :=
  "Table " ++ tName ++ " does not exist in DB " ++ dbName

/-! ## UnlinkTable -/

/-- Body of the first loop of `UnlinkTable` for one neighbour `linked`: the
neighbour's foreign keys whose `References` is `t` are deleted from its `Fks`,
and `name` is deleted from the neighbour's `LinkedTables`. -/
def unlinkNeighbour (t : Ptr) (name : String) (linked : Ptr) (h : Heap) : Heap :=
  heapSet h linked
    { h linked with
      Fks := (h linked).Fks.filter (fun e => decide (e.2.References ≠ some t))
      LinkedTables := mapDelete (h linked).LinkedTables name }

/-- First loop of `UnlinkTable`: `range t.LinkedTables`. An entry deleted from
the map before it is reached is not visited. -/
def unlinkNeighbours (t : Ptr) (name : String) : List (String × Ptr) → Heap → Heap
  | [], h => h
  | (ltName, linked) :: rest, h =>
    if (mapGet (h t).LinkedTables ltName).isSome then
      unlinkNeighbours t name rest (unlinkNeighbour t name linked h)
    else
      unlinkNeighbours t name rest h

/-- Second loop of `UnlinkTable`: every foreign key of `t` gets a nil
`References`. -/
def clearReferences (t : Ptr) (h : Heap) : Heap :=
  heapSet h t
    { h t with Fks := (h t).Fks.map (fun e => (e.1, { e.2 with References := none })) }

/-- The method `(t *Table) UnlinkTable()`. -/
def UnlinkTable (t : Ptr) (h : Heap) : Heap :=
  clearReferences t (unlinkNeighbours t (h t).Name (h t).LinkedTables h)

/-! ## AddTable -/

/-- Lines 136-138 of `AddTable`: `t.LinkedTables[fk.ReferenceTable] = val`,
`val.DependantTables[t.Name] = t`, `fk.References = val`. -/
def addLink (t : Ptr) (fkName : String) (fk : Fk) (val : Ptr) (h : Heap) : Heap :=
  let h1 := heapSet h t
    { h t with LinkedTables := mapSet (h t).LinkedTables fk.ReferenceTable val }
  let h2 := heapSet h1 val
    { h1 val with DependantTables := mapSet (h1 val).DependantTables (h1 t).Name t }
  heapSet h2 t
    { h2 t with Fks := mapSet (h2 t).Fks fkName { fk with References := some val } }

/-- Body of the loop of `AddTable` for one foreign key of `t`: when the target
name is a key of `db.Tables`, the link is made both ways and the reference
set. -/
def addTableLink (tables : List (String × Ptr)) (t : Ptr) (fkName : String) (fk : Fk)
    (h : Heap) : Heap :=
  match mapGet tables fk.ReferenceTable with
  | some val => addLink t fkName fk val h
  | none => h

/-- What the loop of `AddTable` makes of one entry of `t.Fks`: the reference is
set when the target name is a key of `tables`, and the entry is left as it is
otherwise. -/
def linkedEntry (tables : List (String × Ptr)) (e : String × Fk) : String × Fk :=
  match mapGet tables e.2.ReferenceTable with
  | some val => (e.1, { e.2 with References := some val })
  | none => e

/-- The loop `for _, fk := range t.Fks` of `AddTable`. -/
def addTableLinks (tables : List (String × Ptr)) (t : Ptr) : List (String × Fk) → Heap → Heap
  | [], h => h
  | (fkName, fk) :: rest, h => addTableLinks tables t rest (addTableLink tables t fkName fk h)

/-- Lines 126-133 of `AddTable` when no error is returned: a table already
stored under the name of `t` is unlinked and its key deleted. -/
def addTableReplace (db : TableCollection) (t : Ptr) (h : Heap) : TableCollection × Heap :=
  match mapGet db.Tables (h t).Name with
  | some val => ({ db with Tables := mapDelete db.Tables (h t).Name }, UnlinkTable val h)
  | none => (db, h)

/-- Lines 134-142 of `AddTable`: the foreign keys of `t` are linked and `t` is
stored under its name. -/
def addTableStore (db : TableCollection) (t : Ptr) (h : Heap) : TableCollection × Heap :=
  let h1 := addTableLinks db.Tables t (h t).Fks h
  ({ db with Tables := mapSet db.Tables (h1 t).Name t }, h1)

/-- The method `(db *TableCollection) AddTable(t, errOnDuplicate)`. -/
def AddTable (db : TableCollection) (t : Ptr) (errOnDuplicate : Bool) (h : Heap) :
    Result (TableCollection × Heap) :=
  if (mapGet db.Tables (h t).Name).isSome ∧ errOnDuplicate = true then
    .ret (db, h) (some (errDuplicateTable (h t).Name db.Name))
  else
    let s := addTableReplace db t h
    .ret (addTableStore s.1 t s.2) none

/-! ## LinkAllTables -/

/-- Lines 168-170 of `LinkAllTables`: `tbl.LinkedTables[val.Name] = val`,
`fk.References = val`, `val.DependantTables[tbl.Name] = tbl`. -/
def linkTo (tbl : Ptr) (fkName : String) (fk : Fk) (val : Ptr) (h : Heap) : Heap :=
  let h1 := heapSet h tbl
    { h tbl with LinkedTables := mapSet (h tbl).LinkedTables (h val).Name val }
  let h2 := heapSet h1 tbl
    { h1 tbl with Fks := mapSet (h1 tbl).Fks fkName { fk with References := some val } }
  heapSet h2 val
    { h2 val with DependantTables := mapSet (h2 val).DependantTables (h2 tbl).Name tbl }

/-- Body of the inner loop of `LinkAllTables` for one foreign key of `tbl`. On
the branch of an existing link, the error message reads `f.Name` where `f` is
the nil `*Field` of the failed lookup, which panics. -/
def linkFk (db : TableCollection) (withIntegrityCheck : Bool) (tbl : Ptr) (fkName : String)
    (fk : Fk) (h : Heap) : Result Heap :=
  match mapGet (h tbl).LinkedTables fk.ReferenceTable with
  | some link =>
    if withIntegrityCheck = true ∧ (mapGet (h link).Fields fk.ReferenceField).isNone then
      .panic nilDerefPanic
    else
      .ret h none
  | none =>
    match mapGet db.Tables fk.ReferenceTable with
    | none => .ret h (some (errMissingReferencedTable fk.ReferenceTable))
    | some val =>
      if withIntegrityCheck = true ∧ (mapGet (h val).Fields fk.ReferenceField).isNone then
        .ret h (some (errDanglingFieldReference fkName fk.ReferenceField (h val).Name))
      else
        .ret (linkTo tbl fkName fk val h) none

/-- The loop `for fkName, fk := range tbl.Fks` of `LinkAllTables`; a return
inside the body ends the call. -/
def linkFks (db : TableCollection) (withIntegrityCheck : Bool) (tbl : Ptr) :
    List (String × Fk) → Heap → Result Heap
  | [], h => .ret h none
  | (fkName, fk) :: rest, h =>
    match linkFk db withIntegrityCheck tbl fkName fk h with
    | .ret h1 none => linkFks db withIntegrityCheck tbl rest h1
    | r => r

/-- The loop `for name, tbl := range db.Tables` of `LinkAllTables`. -/
def linkTables (db : TableCollection) (withIntegrityCheck : Bool) :
    List (String × Ptr) → Heap → Result Heap
  | [], h => .ret h none
  | (_, tbl) :: rest, h =>
    match linkFks db withIntegrityCheck tbl (h tbl).Fks h with
    | .ret h1 none => linkTables db withIntegrityCheck rest h1
    | r => r

/-- The method `(db *TableCollection) LinkAllTables(withIntegrityCheck)`. The
collection itself is returned as it is; the tables change in the heap. -/
def LinkAllTables (db : TableCollection) (withIntegrityCheck : Bool) (h : Heap) : Result Heap :=
  linkTables db withIntegrityCheck db.Tables h

/-! ## RemoveTable -/

/-- The method `(db *TableCollection) RemoveTable(t)`: the key `t.Name` is
deleted from `db.Tables`; no table is touched. -/
def RemoveTable (db : TableCollection) (t : Ptr) (h : Heap) : TableCollection × Heap :=
  match mapGet db.Tables (h t).Name with
  | none => (db, h)
  | some _ => ({ db with Tables := mapDelete db.Tables (h t).Name }, h)

/-- The method `(db *TableCollection) RemoveTableByName(tName)`. -/
def RemoveTableByName (db : TableCollection) (tName : String) (h : Heap) :
    Result (TableCollection × Heap) :=
  match mapGet db.Tables tName with
  | none => .ret (db, h) (some (errUnknownTable tName db.Name))
  | some val => .ret (RemoveTable db val h) none

/-! ## GetTablesInCreatableOrder -/

/-- The loop `for dName := range tbl.LinkedTables` of the resolver, as the test
it computes: every name of the depends-on map is marked `true` in `created`;
the first name that is not ends the loop with `created[name] = false`. -/
def depsFulfilled (created : List (String × Bool)) : List (String × Ptr) → Bool
  | [] => true
  | (dName, _) :: rest =>
    if mapGet created dName = some true then depsFulfilled created rest else false

/-- Body of the loop `for name, tbl := range db.Tables` of the resolver:
`created[name]` is set, the depends-on map is checked, and `todo` is lowered
when `created[name]` ends up `true`. The result is `none` when the store into
`created` panics because the map is nil. -/
def sweepTable (h : Heap) (name : String) (tbl : Ptr) (created : GoMap Bool) (todo : Int) :
    Option (GoMap Bool × Int) :=
  match created with
  | none => none
  | some c =>
    let c1 := mapSet c name true
    let c2 := if depsFulfilled c1 (h tbl).LinkedTables then c1 else mapSet c1 name false
    some (some c2, if mapGet c2 name = some true then todo - 1 else todo)

/-- One sweep: the loop `for name, tbl := range db.Tables`. -/
def sweep (h : Heap) : List (String × Ptr) → GoMap Bool → Int → Option (GoMap Bool × Int)
  | [], created, todo => some (created, todo)
  | (name, tbl) :: rest, created, todo =>
    match sweepTable h name tbl created todo with
    | none => none
    | some (created1, todo1) => sweep h rest created1 todo1

/-- Store `s[i] = v` into a slice; `none` when `i` is out of range. -/
def sliceSet (s : List String) (i : Nat) (v : String) : Option (List String) :=
  if i < s.length then some (s.set i v) else none

/-- The loop `for linkName := range tbl.LinkedTables` of `getOrderError`: the
names not marked `true` are written into `depends` from index `dependsIdx` on.
The result is `none` on an index out of range. -/
def collectDepends (created : GoMap Bool) :
    List (String × Ptr) → List String → Nat → Option (List String × Nat)
  | [], depends, dependsIdx => some (depends, dependsIdx)
  | (linkName, _) :: rest, depends, dependsIdx =>
    if created.get linkName = some true then
      collectDepends created rest depends dependsIdx
    else
      match sliceSet depends dependsIdx linkName with
      | none => none
      | some depends1 => collectDepends created rest depends1 (dependsIdx + 1)

/-- The loop `for name, state := range created` of `getOrderError`. Every
message is stored at `missing[missingIdx]`, and `missingIdx` is 1 throughout.
The result is a panic message when a table is absent from `db.Tables` (nil
`tbl`) or an index is out of range. -/
def collectMissing (db : TableCollection) (h : Heap) (created : GoMap Bool) (missingIdx : Nat) :
    List (String × Bool) → List String → Except String (List String)
  | [], missing => .ok missing
  | (name, state) :: rest, missing =>
    if state = false then
      match mapGet db.Tables name with
      | none => .error nilDerefPanic
      | some tbl =>
        match collectDepends created (h tbl).LinkedTables
            (List.replicate (h tbl).LinkedTables.length "") 0 with
        | none => .error indexPanic
        | some (depends, dependsIdx) =>
          let line :=
            if dependsIdx = 0 then "Error resolving " ++ name ++ ": UNKNOWN REASON"
            else "Error resolving " ++ name ++ ": missing " ++ ", ".intercalate depends
          match sliceSet missing missingIdx line with
          | none => .error indexPanic
          | some missing1 => collectMissing db h created missingIdx rest missing1
    else
      collectMissing db h created missingIdx rest missing

/-- The function `getOrderError(db, created, left)`: the error it returns, or
its panic. -/
def getOrderError (db : TableCollection) (h : Heap) (created : GoMap Bool) (left : Int) :
    Result Unit :=
  if left < 0 then .panic "makeslice: len out of range"
  else
    match collectMissing db h created 1 created.entries (List.replicate left.toNat "") with
    | .error msg => .panic msg
    | .ok missing =>
      .ret () (some ("Table sorting error possible circular references:\n"
        ++ "\n".intercalate missing))

/-- The loop `for todo > 0` of the resolver, started from any `created` and
`todo`. `order` is the slice returned; the loop never writes it. Each round
that does not return lowers `todo`, so `fuel` rounds are enough when `fuel` is
at least `todo`; `none` is returned when the fuel runs out first. -/
def resolveFrom (db : TableCollection) (h : Heap) (order : List (Option Ptr)) :
    Nat → GoMap Bool → Int → Option (Result (List (Option Ptr)))
  | fuel, created, todo =>
    if todo > 0 then
      match fuel with
      | 0 => none
      | fuel1 + 1 =>
        match sweep h db.Tables created todo with
        | none => some (.panic nilMapPanic)
        | some (created1, todo1) =>
          if todo = todo1 then
            match getOrderError db h created1 todo1 with
            | .ret _ err => some (.ret order err)
            | .panic msg => some (.panic msg)
          else resolveFrom db h order fuel1 created1 todo1
    else some (.ret order none)

/-- The method `(db *TableCollection) GetTablesInCreatableOrder()`, run for at
most `fuel` sweeps. `order` is made with `len(db.Tables)` nil pointers and
`created` is declared without being made, so it starts as the nil map. -/
def GetTablesInCreatableOrder (db : TableCollection) (h : Heap) (fuel : Nat) :
    Option (Result (List (Option Ptr))) :=
  resolveFrom db h (List.replicate db.Tables.length none) fuel none db.Tables.length

/-! ## Regular expressions -/

/-- The back quote, the quoting delimiter of identifiers. -/
def backquote : Char := Char.ofNat 96

/-- The syntax of the regular expressions the program compiles. -/
inductive Regex where
  | empty : Regex
  | lit (c : Char) : Regex
  | notLit (c : Char) : Regex
  | space : Regex
  | notSpace : Regex
  | dot : Regex
  | seq (a b : Regex) : Regex
  | alt (a b : Regex) : Regex
  | star (a : Regex) : Regex
  | lazyStar (a : Regex) : Regex
  | opt (a : Regex) : Regex
  | group (i : Nat) (a : Regex) : Regex
deriving Repr

/-- The class `\s`. -/
def isSpace (c : Char) : Bool :=
  c = ' ' || c = '\t' || c = '\n' || c = '\x0c' || c = '\r'

/-- The text captured so far, by group number; the latest capture of a group
comes first. -/
abbrev Caps := List (Nat × List Char)

/-- A match in progress: the input left and the captures. -/
abbrev Cont := List Char → Caps → Option (List Char × Caps)

/-- One character matched by a class. -/
def matchChar (ok : Char → Bool) (s : List Char) (caps : Caps) (k : Cont) :
    Option (List Char × Caps) :=
  match s with
  | [] => none
  | x :: xs => if ok x then k xs caps else none

/-- Repetition of `body`, greedy or lazy; a round that consumes nothing is not
taken again. -/
def starLoop (body : List Char → Caps → Cont → Option (List Char × Caps)) (greedy : Bool) :
    Nat → List Char → Caps → Cont → Option (List Char × Caps)
  | 0, s, caps, k => k s caps
  | fuel + 1, s, caps, k =>
    let more : Option (List Char × Caps) :=
      body s caps (fun s1 c1 =>
        if s1.length < s.length then starLoop body greedy fuel s1 c1 k else none)
    if greedy then
      match more with
      | some r => some r
      | none => k s caps
    else
      match k s caps with
      | some r => some r
      | none => more

/-- Backtracking match of a regular expression at the head of `s`, the first
alternative that leads to a full match winning (leftmost-first, the rule of
Go's `regexp`). -/
def Regex.run : Regex → List Char → Caps → Cont → Option (List Char × Caps)
  | .empty, s, caps, k => k s caps
  | .lit c, s, caps, k => matchChar (fun x => x = c) s caps k
  | .notLit c, s, caps, k => matchChar (fun x => x ≠ c) s caps k
  | .space, s, caps, k => matchChar isSpace s caps k
  | .notSpace, s, caps, k => matchChar (fun x => !isSpace x) s caps k
  | .dot, s, caps, k => matchChar (fun x => x ≠ '\n') s caps k
  | .seq a b, s, caps, k => a.run s caps (fun s1 c1 => b.run s1 c1 k)
  | .alt a b, s, caps, k =>
    match a.run s caps k with
    | some r => some r
    | none => b.run s caps k
  | .star a, s, caps, k => starLoop a.run true s.length s caps k
  | .lazyStar a, s, caps, k => starLoop a.run false s.length s caps k
  | .opt a, s, caps, k =>
    match a.run s caps k with
    | some r => some r
    | none => k s caps
  | .group i a, s, caps, k =>
    a.run s caps (fun s1 c1 => k s1 ((i, s.take (s.length - s1.length)) :: c1))

/-- The expression matching the characters of `cs` in a row. -/
def Regex.text : List Char → Regex
  | [] => .empty
  | c :: cs => .seq (.lit c) (Regex.text cs)

/-- One or more: `a+`. -/
def Regex.plus (a : Regex) : Regex := .seq a (.star a)

/-- A compiled regular expression: whether it starts with `^`, its body, and
its number of groups. -/
structure Regexp where
  anchored : Bool
  body : Regex
  groups : Nat
deriving Repr

/-- Text of group `i`, empty when the group took no part in the match. -/
def capture (caps : Caps) (i : Nat) : String :=
  match caps.find? (fun e => e.1 = i) with
  | some e => String.mk e.2
  | none => ""

/-- A match of `re` at the head of `s`: the whole match and the groups, and the
input after the match. -/
def Regexp.matchHere (re : Regexp) (s : List Char) : Option (List String × List Char) :=
  match re.body.run s [] (fun rest caps => some (rest, caps)) with
  | none => none
  | some (rest, caps) =>
    some (String.mk (s.take (s.length - rest.length))
      :: (List.range re.groups).map (fun i => capture caps (i + 1)), rest)

/-- Leftmost match of `re` in `s`; `atStart` tells whether `s` begins the
text, where alone an anchored expression can match. -/
def Regexp.search (re : Regexp) : Nat → Bool → List Char → Option (List String × List Char)
  | 0, _, _ => none
  | fuel + 1, atStart, s =>
    match (if re.anchored && !atStart then none else re.matchHere s) with
    | some r => some r
    | none =>
      match s with
      | [] => none
      | _ :: xs => re.search fuel false xs

/-- The method `FindStringSubmatch`: the leftmost match with its groups, the
nil slice when there is none. -/
def Regexp.FindStringSubmatch (re : Regexp) (s : String) : List String :=
  match re.search (s.length + 1) true s.toList with
  | some r => r.1
  | none => []

/-- The successive matches of `re` in `s`, each search starting where the last
match ended. -/
def Regexp.findAll (re : Regexp) : Nat → Bool → List Char → List (List String)
  | 0, _, _ => []
  | fuel + 1, atStart, s =>
    match re.search (s.length + 1) atStart s with
    | none => []
    | some (m, rest) =>
      if rest.length < s.length then m :: re.findAll fuel false rest
      else
        match s with
        | [] => [m]
        | _ :: xs => m :: re.findAll fuel false xs

/-- The method `FindAllStringSubmatch(s, -1)`. -/
def Regexp.FindAllStringSubmatch (re : Regexp) (s : String) : List (List String) :=
  re.findAll (s.length + 1) true s.toList

/-- The type `patterns`. -/
structure patterns where
  generic : Regexp
  fieldDef : Regexp
  fkDef : Regexp
deriving Repr

/-- A quoted identifier with its name in group `i`: the source text is a back
quote, `([^q]+)` with `q` the back quote, and a back quote. -/
def quotedName (i : Nat) : Regex :=
  .seq (.lit backquote) (.seq (.group i (Regex.plus (.notLit backquote))) (.lit backquote))

/-- The variable `p` as `init` sets it. -/
def p : patterns :=
  { generic := { anchored := false, body := quotedName 1, groups := 1 }
    fieldDef :=
      { anchored := true
        body :=
          .seq (quotedName 1)
          (.seq (Regex.plus .space)
          (.seq (.group 2 (Regex.plus .notSpace))
          (.seq (.star .space)
          (.seq (.group 3 (.lazyStar .dot))
          (.seq (.star .space)
          (.seq (.opt (.group 4 (Regex.text "NOT NULL".toList)))
          (.seq (.star .space)
          (.group 5
            (.alt (.seq (Regex.text "DEFAULT".toList)
                    (.seq (Regex.plus .space) (.group 6 (Regex.plus (.notLit ',')))))
            (.alt (Regex.text "AUTO_INCREMENT".toList) (.lit ','))))))))))),
        groups := 6 }
    fkDef :=
      { anchored := false
        body :=
          .seq (quotedName 1)
          (.seq (Regex.plus (.notLit '('))
          (.seq (.lit '(')
          (.seq (quotedName 2)
          (.seq (Regex.plus (.notLit backquote))
          (.seq (quotedName 3)
          (.seq (Regex.plus (.notLit '('))
          (.seq (.lit '(')
          (.seq (.lit backquote) (.group 4 (Regex.plus (.notLit backquote))))))))))),
        groups := 4 } }

/-! ## The statement parser -/

/-- The function `strings.Split(s, sep)` for a separator of one character. -/
def splitOn (sep : Char) : List Char → List (List Char)
  | [] => [[]]
  | c :: cs =>
    match splitOn sep cs with
    | [] => [[]]
    | l :: ls => if c = sep then [] :: l :: ls else (c :: l) :: ls

/-- The function `strings.Trim(s, " ")`: the leading and trailing spaces are
cut. -/
def Trim (s : String) : String :=
  String.mk (((s.toList.dropWhile (fun c => c = ' ')).reverse.dropWhile
    (fun c => c = ' ')).reverse)

/-- Whether `pre` starts `s`. -/
def startsWith : List Char → List Char → Bool
  | [], _ => true
  | _ :: _, [] => false
  | a :: as, b :: bs => a = b && startsWith as bs

/-- Whether `sub` occurs in `s`. -/
def containsChars (sub : List Char) : List Char → Bool
  | [] => startsWith sub []
  | c :: cs => startsWith sub (c :: cs) || containsChars sub cs

/-- The function `strings.Contains(s, substr)`. -/
def Contains (s substr : String) : Bool := containsChars substr.toList s.toList

/-- Lower case of one character as `strings.ToLower` maps it, for the
characters whose lower case is an ASCII letter: the ASCII capitals, the
capital I with dot (U+0130) and the Kelvin sign (U+212A). The other
characters are left as they are; their lower case is not an ASCII character,
so they take no part in a search for an ASCII word. -/
def lowerChar (c : Char) : Char :=
  if c = Char.ofNat 0x130 then 'i'
  else if c = Char.ofNat 0x212A then 'k'
  else c.toLower

/-- The function `strings.ToLower`, see `lowerChar`. -/
def ToLower (s : String) : String := String.mk (s.toList.map lowerChar)

/-- The function `NewFieldFromString(fStmt)`; `matched` is the variable
`matches` of the source. The error message names the statement (the source
passes the undeclared `fieldDef`). -/
def NewFieldFromString (fStmt : String) : Result (Option Field) :=
  let matched := p.fieldDef.FindStringSubmatch fStmt
  if matched.length ≠ 7 then
    .ret none (some ("Unable to extract field name and type from " ++ fStmt))
  else
    let attributes := " ".intercalate (matched.drop 3)
    let lowerAttr := ToLower attributes
    .ret (some
      { Name := matched.getD 1 ""
        Datatype := matched.getD 2 ""
        DefaultValue := if Contains lowerAttr "default " then matched.getD 6 "" else ""
        Attributes := attributes
        Nullable := !Contains lowerAttr "not null"
        AutoIncrement := Contains lowerAttr "auto_increment"
        IsPK := false
        Signed := !Contains lowerAttr "unsigned" }) none

/-- The function `NewConstraintFromString(fkStmt)`. -/
def NewConstraintFromString (fkStmt : String) : Result (Option Fk) :=
  let matched := p.fkDef.FindAllStringSubmatch fkStmt
  if matched.length < 1 ∨ (matched.getD 0 []).length ≠ 5 then
    .ret none (some ("Unable to extract contraint from " ++ fkStmt))
  else
    .ret (some
      { Name := (matched.getD 0 []).getD 1 ""
        KeyField := (matched.getD 0 []).getD 2 ""
        ReferenceTable := (matched.getD 0 []).getD 3 ""
        ReferenceField := (matched.getD 0 []).getD 4 ""
        Constraints := []
        References := none }) none

/-- The loop `for _, sub := range matches` of `AddPrimaryKeyFromString`, with
the assignment `t.Pk = p` after it. The name looked up is the captured group
of `sub`. A field that is found is stored into `p.Fields`, the map of a
`new(PrimaryKey)`, which is nil: the store panics. A field that is not found
returns the error. -/
def primaryKeyFields (t : Table) : List (List String) → Result Table
  | [] => .ret { t with Pk := { Fields := none } } none
  | sub :: _ =>
    match mapGet t.Fields (sub.getD 1 "") with
    | some _ => .panic nilMapPanic
    | none =>
      .ret t (some ("Unable add PK for table " ++ t.Name ++ ", field " ++ sub.getD 1 ""
        ++ " not found"))

/-- The method `(t *Table) AddPrimaryKeyFromString(pk)`: the table after the
call, with the error. -/
def AddPrimaryKeyFromString (t : Table) (pk : String) : Result Table :=
  let matched := p.generic.FindAllStringSubmatch pk
  if matched.length < 1 then
    .ret t (some ("Failed to extract fields from PK definition " ++ pk))
  else primaryKeyFields t matched

/-- The loop `for _, fname := range matches[1:]` of `AddIndexFromString`, with
the statements after it. A field that is found is stored into the fields of
`tIdx`, the map of a `new(Index)`, which is nil: the store panics. After the
loop the index is stored into `t.Indexes`, which panics when that map is nil. -/
def indexFields (t : Table) (idx name : String) : List (List String) → Result Table
  | [] =>
    match t.Indexes with
    | none => .panic nilMapPanic
    | some m =>
      .ret { t with
        Indexes := some (mapSet m name
          { Name := name, Unique := Contains (ToLower idx) "unique", Fields := none }) } none
  | fname :: _ =>
    match mapGet t.Fields (fname.getD 1 "") with
    | some _ => .panic nilMapPanic
    | none => .ret t (some ("Index cannot use non-existant field " ++ fname.getD 1 ""))

/-- The method `(t *Table) AddIndexFromString(idx)`: the table after the call,
with the error. The statement `matches = matches[0]` is left out: the lines
after it index `matches` as the list of all matches. -/
def AddIndexFromString (t : Table) (idx : String) : Result Table :=
  let matched := p.generic.FindAllStringSubmatch idx
  if matched.length = 0 ∨ (matched.getD 0 []).length ≠ 2 then
    .ret t (some ("Unable to reliably parse idx line " ++ idx))
  else indexFields t idx ((matched.getD 0 []).getD 1 "") (matched.drop 1)

/-- The table `new(Table)` of `NewTableFromQuery` with `CreateStmt` set: every
map of it is nil. `Fields` and `Fks` read as the empty map; the stores into
them are in `assembleLines`. -/
def newTable (q : String) : Table :=
  { Name := "", CreateStmt := q, Pk := { Fields := none }, Fields := [], Fks := [],
    Indexes := none, DependantTables := [], LinkedTables := [] }

/-- The loop `for i, l := range lines` of `NewTableFromQuery` on the table `t`
made by `new(Table)`. Each branch declares an `err` of its own with `:=`, so
the `err` tested after the branches is the one declared at the top of the
function, which is nil throughout: an error of a builder is dropped and the
loop goes on. A field or constraint that is built is stored into `t.Fields`
or `t.Fks`, which are nil maps: the store panics. -/
def assembleLines (t : Table) : List String → Result (Option Table)
  | [] => .ret (some t) none
  | l0 :: rest =>
    match (Trim l0).toList with
    | [] => .panic indexPanic
    | c :: _ =>
      if c = backquote then
        match NewFieldFromString (Trim l0) with
        | .ret _ none => .panic nilMapPanic
        | .ret _ (some _) => assembleLines t rest
        | .panic msg => .panic msg
      else if Contains (Trim l0) "PRIMARY KEY" then
        match AddPrimaryKeyFromString t (Trim l0) with
        | .ret t1 _ => assembleLines t1 rest
        | .panic msg => .panic msg
      else if Contains (Trim l0) "CONSTRAINT" then
        match NewConstraintFromString (Trim l0) with
        | .ret _ none => .panic nilMapPanic
        | .ret _ (some _) => assembleLines t rest
        | .panic msg => .panic msg
      else
        match AddIndexFromString t (Trim l0) with
        | .ret t1 _ => assembleLines t1 rest
        | .panic msg => .panic msg

/-- The function `NewTableFromQuery(q)`. The name found in the first line goes
to the variable `name` and is not stored in the table. Indexing the nil slice
of a failed match panics, and so does the slice `lines[1 : len(lines)-2]` of
fewer than three lines. -/
def NewTableFromQuery (q : String) : Result (Option Table) :=
  let lines := (splitOn '\n' q.toList).map String.mk
  if (p.generic.FindStringSubmatch (lines.getD 0 "")).length ≤ 1 then .panic indexPanic
  else if lines.length < 3 then .panic "slice bounds out of range"
  else assembleLines (newTable q) ((lines.drop 1).take (lines.length - 3))

/-! ## Concrete tables and graphs -/

/-- A table without fields, foreign keys or links. -/
def plainTable (name : String) : Table :=
  { Name := name, CreateStmt := "", Pk := { Fields := some [] }, Fields := [], Fks := [],
    Indexes := some [], DependantTables := [], LinkedTables := [] }

/-- An unlinked foreign key `name` on field `id` to `refTable(refField)`. -/
def stubFk (name refTable refField : String) : Fk :=
  { Name := name, KeyField := "id", ReferenceTable := refTable, ReferenceField := refField,
    Constraints := [], References := none }

/-- A column `name` of type int. -/
def intField (name : String) : Field :=
  { Name := name, Datatype := "int", DefaultValue := "", Attributes := "", Nullable := true,
    AutoIncrement := false, IsPK := false, Signed := true }

/-- The empty collection. -/
def emptyDb : TableCollection := { Tables := [], Charset := "utf8", Name := "db" }

/-! ## Sequences of calls on a collection -/

/-- A mutating call on the collection. -/
inductive Op where
  | add (t : Ptr) (errOnDuplicate : Bool) : Op
  | link (withIntegrityCheck : Bool) : Op
  | remove (t : Ptr) : Op
deriving DecidableEq, Repr

/-- The collection and heap after one call that returns (with or without an
error); `none` when the call panics. -/
def step (s : TableCollection × Heap) : Op → Option (TableCollection × Heap)
  | .add t e =>
    match AddTable s.1 t e s.2 with
    | .ret s1 _ => some s1
    | .panic _ => none
  | .link c =>
    match LinkAllTables s.1 c s.2 with
    | .ret h1 _ => some (s.1, h1)
    | .panic _ => none
  | .remove t => some (RemoveTable s.1 t s.2)

/-- The collection and heap after a sequence of calls. -/
def run : List Op → TableCollection × Heap → Option (TableCollection × Heap)
  | [], s => some s
  | op :: rest, s =>
    match step s op with
    | none => none
    | some s1 => run rest s1

/-- Table `b` is a value of the depends-on map of table `a`. -/
def dependsOn (h : Heap) (a b : Ptr) : Bool :=
  (h a).LinkedTables.any (fun e => decide (e.2 = b))

/-- Table `a` is a value of the dependants map of table `b`. -/
def dependantOf (h : Heap) (b a : Ptr) : Bool :=
  (h b).DependantTables.any (fun e => decide (e.2 = a))

/-- The state after a sequence of calls, seen through `f`. -/
def after {α : Type} (ops : List Op) (s : TableCollection × Heap)
    (f : TableCollection → Heap → α) : Option α :=
  (run ops s).map (fun s1 => f s1.1 s1.2)

/-- The foreign keys of the table at `p`, each with its target name and its
reference. -/
def fkRefs (h : Heap) (p : Ptr) : List (String × String × Option Ptr) :=
  (h p).Fks.map (fun e => (e.1, e.2.ReferenceTable, e.2.References))

/-- Nothing of heap `h` is lost in heap `h1`: every table has the name and
fields it had, every key of a depends-on map or dependants map of `h` is a key
of the same map in `h1`, and a foreign key that has a reference in `h` is
found under its key in `h1` with a reference. -/
def keepsLinks (h h1 : Heap) : Prop :=
  ∀ q, (h1 q).Name = (h q).Name ∧ (h1 q).Fields = (h q).Fields ∧
    (∀ k, (mapGet (h q).LinkedTables k).isSome → (mapGet (h1 q).LinkedTables k).isSome) ∧
    (∀ k, (mapGet (h q).DependantTables k).isSome →
      (mapGet (h1 q).DependantTables k).isSome) ∧
    (∀ k fk, mapGet (h q).Fks k = some fk →
      ∃ fk1, mapGet (h1 q).Fks k = some fk1 ∧
        (fk.References.isSome → fk1.References.isSome))

/-- One table "a" without foreign keys, at address 0. -/
def singleHeap : Heap := fun p =>
  match p with
  | 0 => plainTable "a"
  | _ => default

/-- Tables "a", "b", "c" at addresses 0, 1, 2, with "a" and "b" in each
other's depends-on map and "c" depending on nothing. -/
def cycleHeap : Heap := fun p =>
  match p with
  | 0 => { plainTable "a" with LinkedTables := [("b", 1)], DependantTables := [("b", 1)] }
  | 1 => { plainTable "b" with LinkedTables := [("a", 0)], DependantTables := [("a", 0)] }
  | 2 => plainTable "c"
  | _ => default

/-- The collection holding "a", "b" and "c" of `cycleHeap`. -/
def cycleDb : TableCollection := { emptyDb with Tables := [("a", 0), ("b", 1), ("c", 2)] }

/-- The collection holding only "a" and "b" of `cycleHeap`. -/
def twoCycleDb : TableCollection := { emptyDb with Tables := [("a", 0), ("b", 1)] }

/-- One table "a" at address 0 with a foreign key to itself. -/
def selfHeap : Heap := fun p =>
  match p with
  | 0 => { plainTable "a" with
            Fields := [("id", intField "id")]
            Fks := [("fk_self", stubFk "fk_self" "a" "id")] }
  | _ => default

/-- Table "a" at address 0 with a foreign key to "b"; table "b" at address 1. -/
def pairHeap : Heap := fun p =>
  match p with
  | 0 => { plainTable "a" with Fks := [("fk_ab", stubFk "fk_ab" "b" "id")] }
  | 1 => { plainTable "b" with Fields := [("id", intField "id")] }
  | _ => default

/-- Table "a" at address 0 with two foreign keys to "b"; table "b" at address 1. -/
def twoFkHeap : Heap := fun p =>
  match p with
  | 0 => { plainTable "a" with
            Fks := [("fk_1", stubFk "fk_1" "b" "id"), ("fk_2", stubFk "fk_2" "b" "id")] }
  | 1 => { plainTable "b" with Fields := [("id", intField "id")] }
  | _ => default

/-- Table "a" at address 0 with a foreign key to "b" and one to "x"; table "b"
at address 1; there is no table "x". -/
def missingHeap : Heap := fun p =>
  match p with
  | 0 => { plainTable "a" with
            Fks := [("fk_ab", stubFk "fk_ab" "b" "id"), ("fk_ax", stubFk "fk_ax" "x" "id")] }
  | 1 => { plainTable "b" with Fields := [("id", intField "id")] }
  | _ => default

/-- Table "a" at address 0 with a foreign key to "b"; table "b" at address 1;
a second table "a", without foreign keys, at address 2. -/
def staleHeap : Heap := fun p =>
  match p with
  | 0 => { plainTable "a" with Fks := [("fk_ab", stubFk "fk_ab" "b" "id")] }
  | 1 => { plainTable "b" with Fields := [("id", intField "id")] }
  | 2 => plainTable "a"
  | _ => default

/-- The collection holding the table at address 1 under the key "b". -/
def onlyBDb : TableCollection := { emptyDb with Tables := [("b", 1)] }

/-- The collection holding the table at address 0 under the key "a". -/
def onlyADb : TableCollection := { emptyDb with Tables := [("a", 0)] }

/-- The collection holding the tables at addresses 0 and 1 under the keys "a"
and "b". -/
def abDb : TableCollection := { emptyDb with Tables := [("a", 0), ("b", 1)] }

/-- Tables "a" at addresses 0 and 1; the second has a foreign key to "a". -/
def replaceHeap : Heap := fun p =>
  match p with
  | 0 => { plainTable "a" with Fields := [("id", intField "id")] }
  | 1 => { plainTable "a" with
            Fields := [("id", intField "id")]
            Fks := [("fk_self", stubFk "fk_self" "a" "id")] }
  | _ => default

/-- A statement whose column line lacks its closing comma and whose index line
names no quoted identifier. -/
def brokenStmt : String :=
  "CREATE TABLE `t` (\n  `id` int\n  KEY bad\n) ENGINE=InnoDB;\n"

/-- Table "a" at address 0 with a foreign key to the field "nope" of "b";
table "b" at address 1 with the one field "id". -/
def danglingHeap : Heap := fun p =>
  match p with
  | 0 => { plainTable "a" with Fks := [("fk_ab", stubFk "fk_ab" "b" "nope")] }
  | 1 => { plainTable "b" with Fields := [("id", intField "id")] }
  | _ => default

/-- Tables "a", "b", "c" at addresses 0, 1, 2: "a" has a foreign key to "b",
"b" has one to "c". -/
def chainHeap : Heap := fun p =>
  match p with
  | 0 => { plainTable "a" with Fks := [("fk_ab", stubFk "fk_ab" "b" "id")] }
  | 1 => { plainTable "b" with
            Fields := [("id", intField "id")]
            Fks := [("fk_bc", stubFk "fk_bc" "c" "id")] }
  | 2 => { plainTable "c" with Fields := [("id", intField "id")] }
  | _ => default

/-- A statement with a table name and no clause line. -/
def bareStmt : String := "CREATE TABLE `t` (\n) ENGINE=InnoDB;\n"

/-- The message of the panic a call ended with; `none` when it returned. -/
def Result.panicMessage {α : Type} : Result α → Option String
  | .ret _ _ => none
  | .panic msg => some msg

/-- A foreign key with target table `fk.ReferenceTable` and target field
`fk.ReferenceField` is settled for its owner `tbl`: the depends-on map of
`tbl` has the target name, and under the integrity check `c` the table found
there has the target field. This is the case in which `LinkAllTables` passes
over the key. -/
def fkSettled (c : Bool) (h : Heap) (tbl : Ptr) (fk : Fk) : Prop :=
  ∃ link, mapGet (h tbl).LinkedTables fk.ReferenceTable = some link ∧
    (c = true → (mapGet (h link).Fields fk.ReferenceField).isSome = true)

/-- Heap `h1` has every depends-on entry of heap `h`, and the same table names
and fields. -/
def keepsDependsOn (h h1 : Heap) : Prop :=
  ∀ q, (h1 q).Name = (h q).Name ∧ (h1 q).Fields = (h q).Fields ∧
    ∀ k v, mapGet (h q).LinkedTables k = some v → mapGet (h1 q).LinkedTables k = some v

/-- What a match of a regular expression is, apart from the order in which
the matcher tries the alternatives: `Matches re s caps s1 caps1` says that
`re` can take the input `s` with captures `caps` to the rest `s1` with
captures `caps1`. -/
inductive Matches : Regex → List Char → Caps → List Char → Caps → Prop where
  | empty (s : List Char) (caps : Caps) : Matches .empty s caps s caps
  | lit (c : Char) (s : List Char) (caps : Caps) : Matches (.lit c) (c :: s) caps s caps
  | notLit (c x : Char) (s : List Char) (caps : Caps) (hx : x ≠ c) :
    Matches (.notLit c) (x :: s) caps s caps
  | space (x : Char) (s : List Char) (caps : Caps) (hx : isSpace x = true) :
    Matches .space (x :: s) caps s caps
  | notSpace (x : Char) (s : List Char) (caps : Caps) (hx : isSpace x = false) :
    Matches .notSpace (x :: s) caps s caps
  | dot (x : Char) (s : List Char) (caps : Caps) (hx : x ≠ '\n') :
    Matches .dot (x :: s) caps s caps
  | seq (a b : Regex) (s s1 s2 : List Char) (c c1 c2 : Caps) (ha : Matches a s c s1 c1)
    (hb : Matches b s1 c1 s2 c2) : Matches (.seq a b) s c s2 c2
  | altLeft (a b : Regex) (s s1 : List Char) (c c1 : Caps) (ha : Matches a s c s1 c1) :
    Matches (.alt a b) s c s1 c1
  | altRight (a b : Regex) (s s1 : List Char) (c c1 : Caps) (hb : Matches b s c s1 c1) :
    Matches (.alt a b) s c s1 c1
  | starNil (a : Regex) (s : List Char) (c : Caps) : Matches (.star a) s c s c
  | starCons (a : Regex) (s s1 s2 : List Char) (c c1 c2 : Caps) (ha : Matches a s c s1 c1)
    (hs : Matches (.star a) s1 c1 s2 c2) : Matches (.star a) s c s2 c2
  | lazyNil (a : Regex) (s : List Char) (c : Caps) : Matches (.lazyStar a) s c s c
  | lazyCons (a : Regex) (s s1 s2 : List Char) (c c1 c2 : Caps) (ha : Matches a s c s1 c1)
    (hs : Matches (.lazyStar a) s1 c1 s2 c2) : Matches (.lazyStar a) s c s2 c2
  | optSome (a : Regex) (s s1 : List Char) (c c1 : Caps) (ha : Matches a s c s1 c1) :
    Matches (.opt a) s c s1 c1
  | optNone (a : Regex) (s : List Char) (c : Caps) : Matches (.opt a) s c s c
  | group (i : Nat) (a : Regex) (s s1 : List Char) (c c1 : Caps) (ha : Matches a s c s1 c1) :
    Matches (.group i a) s c s1 ((i, s.take (s.length - s1.length)) :: c1)

/-- Whether group `i` occurs in the expression. -/
def Regex.hasGroup (i : Nat) : Regex → Bool
  | .empty => false
  | .lit _ => false
  | .notLit _ => false
  | .space => false
  | .notSpace => false
  | .dot => false
  | .seq a b => a.hasGroup i || b.hasGroup i
  | .alt a b => a.hasGroup i || b.hasGroup i
  | .star a => a.hasGroup i
  | .lazyStar a => a.hasGroup i
  | .opt a => a.hasGroup i
  | .group j a => decide (j = i) || a.hasGroup i

/-- A match of `re` that ends with a non-empty capture 6, from captures
without one, has read the word DEFAULT in its input. -/
def carriesDefault (re : Regex) : Prop :=
  ∀ s c s1 c1, capture c 6 = "" → Matches re s c s1 c1 → capture c1 6 ≠ "" →
    containsChars "DEFAULT".toList s = true

end DbDiff

namespace DbDiff

/-! ## Maps and the heap -/

theorem heapSet_same (h : Heap) (p : Ptr) (t : Table) : heapSet h p t p = t := by
  simp [heapSet]

theorem heapSet_other (h : Heap) (p q : Ptr) (t : Table) (hq : q ≠ p) :
    heapSet h p t q = h q := by
  simp [heapSet, hq]

theorem mapGet_mapSet {V : Type} (m : List (String × V)) (k k' : String) (v : V) :
    mapGet (mapSet m k v) k' = if k = k' then some v else mapGet m k' := by
  induction m with
  | nil =>
    by_cases hk : k = k' <;> simp [mapSet, mapGet, hk]
  | cons e rest ih =>
    obtain ⟨k0, v0⟩ := e
    by_cases h0 : k0 = k
    · subst h0
      by_cases hk : k0 = k' <;> simp [mapSet, mapGet, hk]
    · have hs : mapSet ((k0, v0) :: rest) k v = (k0, v0) :: mapSet rest k v := by
        simp [mapSet, h0]
      rw [hs]
      by_cases h1 : k0 = k'
      · have hk : k ≠ k' := fun hkk => h0 (h1.trans hkk.symm)
        simp [mapGet, h1, hk]
      · simp [mapGet, h1, ih]

theorem mapGet_mapDelete {V : Type} (m : List (String × V)) (k k' : String) :
    mapGet (mapDelete m k) k' = if k = k' then none else mapGet m k' := by
  induction m with
  | nil => simp [mapDelete, mapGet]
  | cons e rest ih =>
    obtain ⟨k0, v0⟩ := e
    unfold mapDelete at ih ⊢
    by_cases h0 : k0 = k
    · subst h0
      by_cases hk : k0 = k'
      · simp [List.filter, hk] at ih ⊢
        simpa [hk] using ih
      · simp [List.filter, hk, mapGet] at ih ⊢
        simpa [hk] using ih
    · by_cases hk : k = k'
      · subst hk
        simp [List.filter, h0, mapGet] at ih ⊢
        simpa using ih
      · simp [List.filter, h0, mapGet, hk] at ih ⊢
        rw [ih]

theorem mapGet_of_mem_nodup {V : Type} (m : List (String × V)) (k : String) (v : V)
    (hnd : (mapKeys m).Nodup) (hmem : (k, v) ∈ m) : mapGet m k = some v := by
  induction m with
  | nil => simp at hmem
  | cons e rest ih =>
    obtain ⟨k0, v0⟩ := e
    simp only [mapKeys, List.map_cons, List.nodup_cons] at hnd
    rcases List.mem_cons.1 hmem with h1 | h1
    · cases h1
      simp [mapGet]
    · have hk : k0 ≠ k := by
        rintro rfl
        exact hnd.1 (List.mem_map.2 ⟨(k0, v), h1, rfl⟩)
      simp only [mapGet, hk, if_false]
      exact ih hnd.2 h1

/-! ## One link made by `LinkAllTables` -/

theorem linkTo_Name (tbl : Ptr) (n : String) (fk : Fk) (val : Ptr) (h : Heap) (q : Ptr) :
    (linkTo tbl n fk val h q).Name = (h q).Name := by
  unfold linkTo
  by_cases h1 : q = tbl
  · subst h1
    by_cases h2 : q = val
    · subst h2
      simp [heapSet]
    · have h2' : ¬ val = q := fun e => h2 e.symm
      simp [heapSet, h2, h2']
  · by_cases h2 : q = val
    · subst h2
      have h1' : ¬ tbl = q := fun e => h1 e.symm
      simp [heapSet, h1, h1']
    · simp [heapSet, h1, h2]

theorem linkTo_Fields (tbl : Ptr) (n : String) (fk : Fk) (val : Ptr) (h : Heap) (q : Ptr) :
    (linkTo tbl n fk val h q).Fields = (h q).Fields := by
  unfold linkTo
  by_cases h1 : q = tbl
  · subst h1
    by_cases h2 : q = val
    · subst h2
      simp [heapSet]
    · have h2' : ¬ val = q := fun e => h2 e.symm
      simp [heapSet, h2, h2']
  · by_cases h2 : q = val
    · subst h2
      have h1' : ¬ tbl = q := fun e => h1 e.symm
      simp [heapSet, h1, h1']
    · simp [heapSet, h1, h2]

theorem linkTo_LinkedTables (tbl : Ptr) (n : String) (fk : Fk) (val : Ptr) (h : Heap) (q : Ptr) :
    (linkTo tbl n fk val h q).LinkedTables
      = if q = tbl then mapSet (h tbl).LinkedTables (h val).Name val else (h q).LinkedTables := by
  unfold linkTo
  by_cases h1 : q = tbl
  · subst h1
    by_cases h2 : q = val
    · subst h2
      simp [heapSet]
    · have h2' : ¬ val = q := fun e => h2 e.symm
      simp [heapSet, h2, h2']
  · by_cases h2 : q = val
    · subst h2
      have h1' : ¬ tbl = q := fun e => h1 e.symm
      simp [heapSet, h1, h1']
    · simp [heapSet, h1, h2]

theorem linkTo_Fks (tbl : Ptr) (n : String) (fk : Fk) (val : Ptr) (h : Heap) (q : Ptr) :
    (linkTo tbl n fk val h q).Fks
      = if q = tbl then mapSet (h tbl).Fks n { fk with References := some val }
        else (h q).Fks := by
  unfold linkTo
  by_cases h1 : q = tbl
  · subst h1
    by_cases h2 : q = val
    · subst h2
      simp [heapSet]
    · have h2' : ¬ val = q := fun e => h2 e.symm
      simp [heapSet, h2, h2']
  · by_cases h2 : q = val
    · subst h2
      have h1' : ¬ tbl = q := fun e => h1 e.symm
      simp [heapSet, h1, h1']
    · simp [heapSet, h1, h2]

theorem linkTo_DependantTables (tbl : Ptr) (n : String) (fk : Fk) (val : Ptr) (h : Heap)
    (q : Ptr) :
    (linkTo tbl n fk val h q).DependantTables
      = if q = val then mapSet (h val).DependantTables (h tbl).Name tbl
        else (h q).DependantTables := by
  unfold linkTo
  by_cases h1 : q = tbl
  · subst h1
    by_cases h2 : q = val
    · subst h2
      simp [heapSet]
    · have h2' : ¬ val = q := fun e => h2 e.symm
      simp [heapSet, h2, h2']
  · by_cases h2 : q = val
    · subst h2
      have h1' : ¬ tbl = q := fun e => h1 e.symm
      simp [heapSet, h1, h1']
    · simp [heapSet, h1, h2]

/-- The five ways the body of the inner loop of `LinkAllTables` ends. -/
theorem linkFk_cases (db : TableCollection) (c : Bool) (tbl : Ptr) (n : String) (fk : Fk)
    (h : Heap) :
    (c = true ∧ linkFk db c tbl n fk h = .panic nilDerefPanic) ∨
    linkFk db c tbl n fk h = .ret h none ∨
    (mapGet (h tbl).LinkedTables fk.ReferenceTable = none ∧
      mapGet db.Tables fk.ReferenceTable = none ∧
      linkFk db c tbl n fk h = .ret h (some (errMissingReferencedTable fk.ReferenceTable))) ∨
    (∃ val, c = true ∧ linkFk db c tbl n fk h
      = .ret h (some (errDanglingFieldReference n fk.ReferenceField (h val).Name))) ∨
    (∃ val, mapGet (h tbl).LinkedTables fk.ReferenceTable = none ∧
      mapGet db.Tables fk.ReferenceTable = some val ∧
      linkFk db c tbl n fk h = .ret (linkTo tbl n fk val h) none) := by
  unfold linkFk
  cases hl : mapGet (h tbl).LinkedTables fk.ReferenceTable with
  | some link =>
    by_cases hc : c = true ∧ (mapGet (h link).Fields fk.ReferenceField).isNone
    · left
      exact ⟨hc.1, by simp only [if_pos hc]⟩
    · right; left
      simp only [if_neg hc]
  | none =>
    cases hd : mapGet db.Tables fk.ReferenceTable with
    | none =>
      right; right; left
      exact ⟨rfl, rfl, rfl⟩
    | some val =>
      by_cases hc : c = true ∧ (mapGet (h val).Fields fk.ReferenceField).isNone
      · right; right; right; left
        exact ⟨val, hc.1, by simp only [if_pos hc]⟩
      · right; right; right; right
        exact ⟨val, rfl, rfl, by simp only [if_neg hc]⟩

/-! ## What `LinkAllTables` leaves alone -/

/-- On any return, the body of the inner loop keeps every table name, and
keeps the foreign keys and depends-on map of every table but `tbl`. -/
theorem linkFk_frame (db : TableCollection) (c : Bool) (tbl : Ptr) (n : String) (fk : Fk)
    (h h1 : Heap) (e : Option String) (hr : linkFk db c tbl n fk h = .ret h1 e) :
    (∀ q, (h1 q).Name = (h q).Name) ∧
    (∀ q, q ≠ tbl → (h1 q).Fks = (h q).Fks ∧ (h1 q).LinkedTables = (h q).LinkedTables) := by
  rcases linkFk_cases db c tbl n fk h with hc | hc | hc | hc | hc
  · rw [hc.2] at hr; cases hr
  · rw [hc] at hr; cases hr
    exact ⟨fun _ => rfl, fun _ _ => ⟨rfl, rfl⟩⟩
  · rw [hc.2.2] at hr; cases hr
    exact ⟨fun _ => rfl, fun _ _ => ⟨rfl, rfl⟩⟩
  · obtain ⟨val, _, hc⟩ := hc
    rw [hc] at hr; cases hr
    exact ⟨fun _ => rfl, fun _ _ => ⟨rfl, rfl⟩⟩
  · obtain ⟨val, _, _, hc⟩ := hc
    rw [hc] at hr; cases hr
    refine ⟨fun q => linkTo_Name _ _ _ _ _ _, fun q hq => ?_⟩
    rw [linkTo_Fks, linkTo_LinkedTables, if_neg hq, if_neg hq]
    exact ⟨rfl, rfl⟩

theorem linkFks_frame (db : TableCollection) (c : Bool) (tbl : Ptr) (fks : List (String × Fk)) :
    ∀ (h h1 : Heap) (e : Option String), linkFks db c tbl fks h = .ret h1 e →
      (∀ q, (h1 q).Name = (h q).Name) ∧
      (∀ q, q ≠ tbl → (h1 q).Fks = (h q).Fks ∧ (h1 q).LinkedTables = (h q).LinkedTables) := by
  induction fks with
  | nil =>
    intro h h1 e hr
    simp only [linkFks] at hr
    cases hr
    exact ⟨fun _ => rfl, fun _ _ => ⟨rfl, rfl⟩⟩
  | cons x rest ih =>
    obtain ⟨n, fk⟩ := x
    intro h h1 e hr
    cases hstep : linkFk db c tbl n fk h with
    | panic msg => simp only [linkFks, hstep] at hr; cases hr
    | ret h2 e2 =>
      have hf := linkFk_frame db c tbl n fk h h2 e2 hstep
      cases e2 with
      | some err =>
        simp only [linkFks, hstep] at hr
        cases hr
        exact hf
      | none =>
        simp only [linkFks, hstep] at hr
        have hi := ih h2 h1 e hr
        refine ⟨fun q => (hi.1 q).trans (hf.1 q), fun q hq => ?_⟩
        exact ⟨((hi.2 q hq).1).trans ((hf.2 q hq).1), ((hi.2 q hq).2).trans ((hf.2 q hq).2)⟩

/-! ## A foreign key to a missing table stops `LinkAllTables` -/

theorem keepsLinks_refl (h : Heap) : keepsLinks h h :=
  fun _ => ⟨rfl, rfl, fun _ hk => hk, fun _ hk => hk, fun _ fk hk => ⟨fk, hk, fun hr => hr⟩⟩

theorem keepsLinks_trans (h h1 h2 : Heap) (h01 : keepsLinks h h1) (h12 : keepsLinks h1 h2) :
    keepsLinks h h2 := by
  intro q
  obtain ⟨a1, a2, a3, a4, a5⟩ := h01 q
  obtain ⟨b1, b2, b3, b4, b5⟩ := h12 q
  refine ⟨b1.trans a1, b2.trans a2, fun k hk => b3 k (a3 k hk), fun k hk => b4 k (a4 k hk), ?_⟩
  intro k fk hk
  obtain ⟨fk1, hk1, hr1⟩ := a5 k fk hk
  obtain ⟨fk2, hk2, hr2⟩ := b5 k fk1 hk1
  exact ⟨fk2, hk2, fun hr => hr2 (hr1 hr)⟩

theorem isSome_mapGet_mapSet {V : Type} (m : List (String × V)) (k k' : String) (v : V)
    (hk : (mapGet m k').isSome) : (mapGet (mapSet m k v) k').isSome := by
  rw [mapGet_mapSet]
  by_cases hkk : k = k'
  · simp [hkk]
  · simpa [hkk] using hk

theorem keepsLinks_linkTo (tbl : Ptr) (n : String) (fk : Fk) (val : Ptr) (h : Heap) :
    keepsLinks h (linkTo tbl n fk val h) := by
  intro q
  refine ⟨linkTo_Name _ _ _ _ _ _, linkTo_Fields _ _ _ _ _ _, ?_, ?_, ?_⟩
  · intro k hk
    rw [linkTo_LinkedTables]
    by_cases hq : q = tbl
    · subst hq
      rw [if_pos rfl]
      exact isSome_mapGet_mapSet _ _ _ _ hk
    · rw [if_neg hq]
      exact hk
  · intro k hk
    rw [linkTo_DependantTables]
    by_cases hq : q = val
    · subst hq
      rw [if_pos rfl]
      exact isSome_mapGet_mapSet _ _ _ _ hk
    · rw [if_neg hq]
      exact hk
  · intro k fk0 hk
    rw [linkTo_Fks]
    by_cases hq : q = tbl
    · subst hq
      rw [if_pos rfl, mapGet_mapSet]
      by_cases hkk : n = k
      · rw [if_pos hkk]
        exact ⟨_, rfl, fun _ => rfl⟩
      · rw [if_neg hkk]
        exact ⟨fk0, hk, fun hr => hr⟩
    · rw [if_neg hq]
      exact ⟨fk0, hk, fun hr => hr⟩

theorem keepsLinks_linkFk (db : TableCollection) (c : Bool) (tbl : Ptr) (n : String) (fk : Fk)
    (h h1 : Heap) (e : Option String) (hr : linkFk db c tbl n fk h = .ret h1 e) :
    keepsLinks h h1 := by
  rcases linkFk_cases db c tbl n fk h with hc | hc | hc | hc | hc
  · rw [hc.2] at hr; cases hr
  · rw [hc] at hr; cases hr
    exact keepsLinks_refl h
  · rw [hc.2.2] at hr; cases hr
    exact keepsLinks_refl h
  · obtain ⟨val, _, hc⟩ := hc
    rw [hc] at hr; cases hr
    exact keepsLinks_refl h
  · obtain ⟨val, _, _, hc⟩ := hc
    rw [hc] at hr; cases hr
    exact keepsLinks_linkTo tbl n fk val h

theorem keepsLinks_linkFks (db : TableCollection) (c : Bool) (tbl : Ptr)
    (fks : List (String × Fk)) :
    ∀ (h h1 : Heap) (e : Option String), linkFks db c tbl fks h = .ret h1 e →
      keepsLinks h h1 := by
  induction fks with
  | nil =>
    intro h h1 e hr
    simp only [linkFks] at hr
    cases hr
    exact keepsLinks_refl h
  | cons x rest ih =>
    obtain ⟨n, fk⟩ := x
    intro h h1 e hr
    cases hstep : linkFk db c tbl n fk h with
    | panic msg => simp only [linkFks, hstep] at hr; cases hr
    | ret h2 e2 =>
      have hk := keepsLinks_linkFk db c tbl n fk h h2 e2 hstep
      cases e2 with
      | some err =>
        simp only [linkFks, hstep] at hr
        cases hr
        exact hk
      | none =>
        simp only [linkFks, hstep] at hr
        exact keepsLinks_trans h h2 h1 hk (ih h2 h1 e hr)

theorem keepsLinks_linkTables (db : TableCollection) (c : Bool) (ts : List (String × Ptr)) :
    ∀ (h h1 : Heap) (e : Option String), linkTables db c ts h = .ret h1 e →
      keepsLinks h h1 := by
  induction ts with
  | nil =>
    intro h h1 e hr
    simp only [linkTables] at hr
    cases hr
    exact keepsLinks_refl h
  | cons x rest ih =>
    obtain ⟨k, tbl⟩ := x
    intro h h1 e hr
    cases hstep : linkFks db c tbl (h tbl).Fks h with
    | panic msg => simp only [linkTables, hstep] at hr; cases hr
    | ret h2 e2 =>
      have hk := keepsLinks_linkFks db c tbl (h tbl).Fks h h2 e2 hstep
      cases e2 with
      | some err =>
        simp only [linkTables, hstep] at hr
        cases hr
        exact hk
      | none =>
        simp only [linkTables, hstep] at hr
        exact keepsLinks_trans h h2 h1 hk (ih h2 h1 e hr)

/-- C7, as amended: `LinkAllTables` has no rollback, so an error return keeps
the links made for the foreign keys visited before the failing one. What holds
on an error return is that nothing of the prior state is lost: every table
keeps its name and fields, every key of a depends-on or dependants map before
the call is still a key of that map, and every foreign key that had a
reference still has one. -/
theorem C7_error_return_loses_nothing (db : TableCollection) (c : Bool) (h h1 : Heap)
    (e : String) (hr : LinkAllTables db c h = .ret h1 (some e)) : keepsLinks h h1 :=
  keepsLinks_linkTables db c db.Tables h h1 (some e) hr

/-- C7, witness: the graph of "a" and "b" where "a" also has a foreign key to
the absent "x"; the error return keeps the prior state and the new link from
"a" to "b". -/
theorem C7_error_return_loses_nothing_witness :
    ∃ h1, LinkAllTables abDb true missingHeap = .ret h1 (some (errMissingReferencedTable "x")) ∧
      keepsLinks missingHeap h1 ∧ (h1 0).LinkedTables = [("b", 1)] :=
  ⟨linkTo 0 "fk_ab" (stubFk "fk_ab" "b" "id") 1 missingHeap, rfl,
    C7_error_return_loses_nothing abDb true missingHeap _
      (errMissingReferencedTable "x") rfl, rfl⟩

/-! ## `UnlinkTable` keeps names and adds no foreign key -/

theorem unlinkNeighbour_Name (t : Ptr) (name : String) (linked : Ptr) (h : Heap) (q : Ptr) :
    (unlinkNeighbour t name linked h q).Name = (h q).Name := by
  unfold unlinkNeighbour
  by_cases hq : q = linked
  · subst hq; simp [heapSet]
  · simp [heapSet, hq]

theorem unlinkNeighbour_keys (t : Ptr) (name : String) (linked : Ptr) (h : Heap) (q : Ptr) :
    (mapKeys (unlinkNeighbour t name linked h q).Fks).Sublist (mapKeys (h q).Fks) := by
  unfold unlinkNeighbour
  by_cases hq : q = linked
  · subst hq
    simp only [heapSet, if_true, mapKeys]
    exact (List.filter_sublist _).map _
  · simp only [heapSet, hq, if_false]
    exact List.Sublist.refl _

theorem unlinkNeighbours_Name (t : Ptr) (name : String) (ls : List (String × Ptr)) :
    ∀ (h : Heap) (q : Ptr), (unlinkNeighbours t name ls h q).Name = (h q).Name := by
  induction ls with
  | nil => intro h q; rfl
  | cons x rest ih =>
    obtain ⟨ltName, linked⟩ := x
    intro h q
    unfold unlinkNeighbours
    split
    · rw [ih, unlinkNeighbour_Name]
    · rw [ih]

theorem unlinkNeighbours_keys (t : Ptr) (name : String) (ls : List (String × Ptr)) :
    ∀ (h : Heap) (q : Ptr),
      (mapKeys (unlinkNeighbours t name ls h q).Fks).Sublist (mapKeys (h q).Fks) := by
  induction ls with
  | nil => intro h q; exact List.Sublist.refl _
  | cons x rest ih =>
    obtain ⟨ltName, linked⟩ := x
    intro h q
    unfold unlinkNeighbours
    split
    · exact (ih _ q).trans (unlinkNeighbour_keys t name linked h q)
    · exact ih h q

theorem UnlinkTable_Name (t : Ptr) (h : Heap) (q : Ptr) :
    (UnlinkTable t h q).Name = (h q).Name := by
  unfold UnlinkTable clearReferences
  by_cases hq : q = t
  · subst hq
    simp only [heapSet, if_true]
    exact unlinkNeighbours_Name _ _ _ _ _
  · simp only [heapSet, hq, if_false]
    exact unlinkNeighbours_Name _ _ _ _ _

theorem UnlinkTable_keys (t : Ptr) (h : Heap) (q : Ptr) :
    (mapKeys (UnlinkTable t h q).Fks).Sublist (mapKeys (h q).Fks) := by
  unfold UnlinkTable clearReferences
  by_cases hq : q = t
  · subst hq
    simp only [heapSet, if_true, mapKeys, List.map_map]
    exact unlinkNeighbours_keys _ _ _ _ _
  · simp only [heapSet, hq, if_false]
    exact unlinkNeighbours_keys _ _ _ _ _

/-! ## The links made by `AddTable` -/

theorem addLink_Name (t : Ptr) (n : String) (fk : Fk) (val : Ptr) (h : Heap) (q : Ptr) :
    (addLink t n fk val h q).Name = (h q).Name := by
  unfold addLink
  by_cases h1 : q = t
  · subst h1
    by_cases h2 : q = val
    · subst h2
      simp [heapSet]
    · have h2' : ¬ val = q := fun e => h2 e.symm
      simp [heapSet, h2, h2']
  · by_cases h2 : q = val
    · subst h2
      have h1' : ¬ t = q := fun e => h1 e.symm
      simp [heapSet, h1, h1']
    · simp [heapSet, h1, h2]

theorem addLink_LinkedTables (t : Ptr) (n : String) (fk : Fk) (val : Ptr) (h : Heap) (q : Ptr) :
    (addLink t n fk val h q).LinkedTables
      = if q = t then mapSet (h t).LinkedTables fk.ReferenceTable val
        else (h q).LinkedTables := by
  unfold addLink
  by_cases h1 : q = t
  · subst h1
    by_cases h2 : q = val
    · subst h2
      simp [heapSet]
    · have h2' : ¬ val = q := fun e => h2 e.symm
      simp [heapSet, h2, h2']
  · by_cases h2 : q = val
    · subst h2
      have h1' : ¬ t = q := fun e => h1 e.symm
      simp [heapSet, h1, h1']
    · simp [heapSet, h1, h2]

theorem addLink_DependantTables (t : Ptr) (n : String) (fk : Fk) (val : Ptr) (h : Heap)
    (q : Ptr) :
    (addLink t n fk val h q).DependantTables
      = if q = val then mapSet (h val).DependantTables (h t).Name t
        else (h q).DependantTables := by
  unfold addLink
  by_cases h1 : q = t
  · subst h1
    by_cases h2 : q = val
    · subst h2
      simp [heapSet]
    · have h2' : ¬ val = q := fun e => h2 e.symm
      simp [heapSet, h2, h2']
  · by_cases h2 : q = val
    · subst h2
      have h1' : ¬ t = q := fun e => h1 e.symm
      simp [heapSet, h1, h1']
    · simp [heapSet, h1, h2]

theorem addLink_Fks (t : Ptr) (n : String) (fk : Fk) (val : Ptr) (h : Heap) (q : Ptr) :
    (addLink t n fk val h q).Fks
      = if q = t then mapSet (h t).Fks n { fk with References := some val }
        else (h q).Fks := by
  unfold addLink
  by_cases h1 : q = t
  · subst h1
    by_cases h2 : q = val
    · subst h2
      simp [heapSet]
    · have h2' : ¬ val = q := fun e => h2 e.symm
      simp [heapSet, h2, h2']
  · by_cases h2 : q = val
    · subst h2
      have h1' : ¬ t = q := fun e => h1 e.symm
      simp [heapSet, h1, h1']
    · simp [heapSet, h1, h2]

theorem addTableLink_Name (tables : List (String × Ptr)) (t : Ptr) (n : String) (fk : Fk)
    (h : Heap) (q : Ptr) : (addTableLink tables t n fk h q).Name = (h q).Name := by
  unfold addTableLink
  cases mapGet tables fk.ReferenceTable with
  | none => rfl
  | some val => exact addLink_Name _ _ _ _ _ _

theorem addTableLinks_Name (tables : List (String × Ptr)) (t : Ptr) (fks : List (String × Fk)) :
    ∀ (h : Heap) (q : Ptr), (addTableLinks tables t fks h q).Name = (h q).Name := by
  induction fks with
  | nil => intro h q; rfl
  | cons x rest ih =>
    obtain ⟨n, fk⟩ := x
    intro h q
    simp only [addTableLinks]
    rw [ih, addTableLink_Name]

/-- A depends-on entry of `t` that agrees with the collection stays through
the loop. -/
theorem addTableLinks_Linked_keep (tables : List (String × Ptr)) (t : Ptr) (k : String)
    (v : Ptr) (hk : mapGet tables k = some v) (fks : List (String × Fk)) :
    ∀ (h : Heap), mapGet (h t).LinkedTables k = some v →
      mapGet (addTableLinks tables t fks h t).LinkedTables k = some v := by
  induction fks with
  | nil => intro h hh; exact hh
  | cons x rest ih =>
    obtain ⟨n, fk⟩ := x
    intro h hh
    simp only [addTableLinks]
    apply ih
    unfold addTableLink
    cases hv : mapGet tables fk.ReferenceTable with
    | none => exact hh
    | some val =>
      simp only
      rw [addLink_LinkedTables, if_pos rfl, mapGet_mapSet]
      by_cases hkk : fk.ReferenceTable = k
      · rw [if_pos hkk]
        rw [hkk, hk] at hv
        exact hv.symm ▸ rfl
      · rw [if_neg hkk]
        exact hh

/-- A name that is not a key of the collection gets no depends-on entry. -/
theorem addTableLinks_Linked_absent (tables : List (String × Ptr)) (t : Ptr) (k : String)
    (hk : mapGet tables k = none) (fks : List (String × Fk)) :
    ∀ (h : Heap), mapGet (addTableLinks tables t fks h t).LinkedTables k
      = mapGet (h t).LinkedTables k := by
  induction fks with
  | nil => intro h; rfl
  | cons x rest ih =>
    obtain ⟨n, fk⟩ := x
    intro h
    simp only [addTableLinks]
    rw [ih]
    unfold addTableLink
    cases hv : mapGet tables fk.ReferenceTable with
    | none => rfl
    | some val =>
      simp only
      rw [addLink_LinkedTables, if_pos rfl, mapGet_mapSet]
      have hkk : fk.ReferenceTable ≠ k := by
        intro heq
        rw [heq, hk] at hv
        cases hv
      rw [if_neg hkk]

theorem addTableLinks_Linked (tables : List (String × Ptr)) (t : Ptr) (n : String) (fk : Fk)
    (val : Ptr) (hv : mapGet tables fk.ReferenceTable = some val) (fks : List (String × Fk)) :
    ∀ (h : Heap), (n, fk) ∈ fks →
      mapGet (addTableLinks tables t fks h t).LinkedTables fk.ReferenceTable = some val := by
  induction fks with
  | nil => intro h hmem; simp at hmem
  | cons x rest ih =>
    obtain ⟨n', fk'⟩ := x
    intro h hmem
    simp only [addTableLinks]
    rcases List.mem_cons.1 hmem with hhead | htail
    · cases hhead
      apply addTableLinks_Linked_keep tables t _ val hv
      unfold addTableLink
      rw [hv]
      simp only
      rw [addLink_LinkedTables, if_pos rfl, mapGet_mapSet, if_pos rfl]
    · exact ih _ htail

/-- The dependants entry for `t` stays through the loop. -/
theorem addTableLinks_Dependant_keep (tables : List (String × Ptr)) (t : Ptr) (q : Ptr)
    (fks : List (String × Fk)) :
    ∀ (h : Heap), mapGet (h q).DependantTables (h t).Name = some t →
      mapGet (addTableLinks tables t fks h q).DependantTables (h t).Name = some t := by
  induction fks with
  | nil => intro h hh; exact hh
  | cons x rest ih =>
    obtain ⟨n, fk⟩ := x
    intro h hh
    simp only [addTableLinks]
    have hn : (addTableLink tables t n fk h t).Name = (h t).Name := addTableLink_Name _ _ _ _ _ _
    rw [← hn]
    apply ih
    rw [hn]
    unfold addTableLink
    cases hv : mapGet tables fk.ReferenceTable with
    | none => exact hh
    | some val =>
      simp only
      rw [addLink_DependantTables]
      by_cases hq : q = val
      · subst hq
        rw [if_pos rfl, mapGet_mapSet, if_pos rfl]
      · rw [if_neg hq]
        exact hh

theorem addTableLinks_Dependant (tables : List (String × Ptr)) (t : Ptr) (n : String) (fk : Fk)
    (val : Ptr) (hv : mapGet tables fk.ReferenceTable = some val) (fks : List (String × Fk)) :
    ∀ (h : Heap), (n, fk) ∈ fks →
      mapGet (addTableLinks tables t fks h val).DependantTables (h t).Name = some t := by
  induction fks with
  | nil => intro h hmem; simp at hmem
  | cons x rest ih =>
    obtain ⟨n', fk'⟩ := x
    intro h hmem
    simp only [addTableLinks]
    have hn : (addTableLink tables t n' fk' h t).Name = (h t).Name :=
      addTableLink_Name _ _ _ _ _ _
    rw [← hn]
    rcases List.mem_cons.1 hmem with hhead | htail
    · cases hhead
      apply addTableLinks_Dependant_keep
      rw [hn]
      unfold addTableLink
      rw [hv]
      simp only
      rw [addLink_DependantTables, if_pos rfl, mapGet_mapSet, if_pos rfl]
    · exact ih _ htail

theorem mapSet_append_of_not_mem {V : Type} (pre rest : List (String × V)) (n : String)
    (v0 v : V) (hn : n ∉ mapKeys pre) :
    mapSet (pre ++ (n, v0) :: rest) n v = pre ++ (n, v) :: rest := by
  induction pre with
  | nil => simp [mapSet]
  | cons e pre ih =>
    obtain ⟨k0, w0⟩ := e
    simp only [mapKeys, List.map_cons, List.mem_cons, not_or] at hn
    have h0 : ¬ k0 = n := fun e => hn.1 e.symm
    have hi := ih hn.2
    simp only [List.cons_append, mapSet, h0, if_false]
    exact congrArg _ hi

theorem linkedEntry_fst (tables : List (String × Ptr)) (e : String × Fk) :
    (linkedEntry tables e).1 = e.1 := by
  unfold linkedEntry
  cases mapGet tables e.2.ReferenceTable <;> rfl

theorem mapKeys_map_linkedEntry (tables : List (String × Ptr)) (fks : List (String × Fk)) :
    mapKeys (fks.map (linkedEntry tables)) = mapKeys fks := by
  induction fks with
  | nil => rfl
  | cons e rest ih =>
    simp only [mapKeys, List.map_cons, List.cons.injEq] at ih ⊢
    exact ⟨linkedEntry_fst tables e, ih⟩

/-- One round of the loop of `AddTable` rewrites the visited entry in place. -/
theorem addTableLink_Fks (tables : List (String × Ptr)) (t : Ptr) (n : String) (fk : Fk)
    (h : Heap) (pre rest : List (String × Fk)) (hfks : (h t).Fks = pre ++ (n, fk) :: rest)
    (hn : n ∉ mapKeys pre) :
    (addTableLink tables t n fk h t).Fks = pre ++ linkedEntry tables (n, fk) :: rest := by
  unfold addTableLink linkedEntry
  cases hv : mapGet tables fk.ReferenceTable with
  | none => simpa only using hfks
  | some val =>
    simp only
    rw [addLink_Fks, if_pos rfl, hfks]
    exact mapSet_append_of_not_mem pre rest n fk _ hn

/-- The loop of `AddTable` rewrites each entry of `t.Fks` in place. -/
theorem addTableLinks_Fks (tables : List (String × Ptr)) (t : Ptr) (fks : List (String × Fk)) :
    ∀ (pre : List (String × Fk)) (h : Heap), (h t).Fks = pre ++ fks →
      (mapKeys (pre ++ fks)).Nodup →
      (addTableLinks tables t fks h t).Fks = pre ++ fks.map (linkedEntry tables) := by
  induction fks with
  | nil => intro pre h hfks _; simpa [addTableLinks] using hfks
  | cons x rest ih =>
    obtain ⟨n, fk⟩ := x
    intro pre h hfks hnd
    have hn : n ∉ mapKeys pre := by
      intro hmem
      simp only [mapKeys, List.map_append, List.map_cons] at hnd hmem
      have hdis := (List.nodup_append.1 hnd).2.2
      exact hdis hmem (List.mem_cons_self _ _)
    have hstep := addTableLink_Fks tables t n fk h pre rest hfks hn
    simp only [addTableLinks, List.map_cons]
    have hi := ih (pre ++ [linkedEntry tables (n, fk)]) (addTableLink tables t n fk h)
      (by rw [hstep]; simp)
      (by
        simp only [mapKeys, List.map_append, List.map_cons, List.map_nil] at hnd ⊢
        rw [linkedEntry_fst]
        simpa using hnd)
    rw [hi]
    simp

/-- The collection at the time `AddTable` makes the links: the key of `t`'s
own name is gone, the other keys are as before the call. -/
theorem addTableReplace_Tables (db : TableCollection) (t : Ptr) (h : Heap) (k : String) :
    mapGet (addTableReplace db t h).1.Tables k
      = if (h t).Name = k then none else mapGet db.Tables k := by
  unfold addTableReplace
  cases hm : mapGet db.Tables (h t).Name with
  | none =>
    by_cases hk : (h t).Name = k
    · rw [if_pos hk, ← hk]
      exact hm
    · rw [if_neg hk]
  | some val =>
    exact mapGet_mapDelete _ _ _

theorem addTableReplace_Name (db : TableCollection) (t : Ptr) (h : Heap) (q : Ptr) :
    ((addTableReplace db t h).2 q).Name = (h q).Name := by
  unfold addTableReplace
  cases mapGet db.Tables (h t).Name with
  | none => rfl
  | some val => exact UnlinkTable_Name _ _ _

theorem addTableReplace_keys (db : TableCollection) (t : Ptr) (h : Heap) (q : Ptr) :
    (mapKeys ((addTableReplace db t h).2 q).Fks).Sublist (mapKeys (h q).Fks) := by
  unfold addTableReplace
  cases mapGet db.Tables (h t).Name with
  | none => exact List.Sublist.refl _
  | some val => exact UnlinkTable_keys _ _ _

/-- C8, as amended: let `AddTable` succeed for table `t`. Then `t` is stored
under its own name, and for every foreign key that `t` holds when the links
are made (after a stored table of the same name, if there was one, has been
unlinked and deleted): when its target name was a key of the graph before the
call and is not the name of `t`, the depends-on map of `t` holds the target,
the dependants map of the target holds `t`, and the reference of the key is
the target; when its target name was absent, or is the name of `t`, the key is
left as it was and no depends-on entry is added for it. -/
theorem C8_AddTable_links_keys_with_present_target (db : TableCollection) (t : Ptr)
    (errOnDuplicate : Bool) (h : Heap) (db' : TableCollection) (h' : Heap)
    (hnd : (mapKeys (h t).Fks).Nodup)
    (hadd : AddTable db t errOnDuplicate h = .ret (db', h') none) :
    mapGet db'.Tables (h t).Name = some t ∧
    ∀ fkName fk, (fkName, fk) ∈ ((addTableReplace db t h).2 t).Fks →
      (∀ val, mapGet db.Tables fk.ReferenceTable = some val →
        fk.ReferenceTable ≠ (h t).Name →
        mapGet (h' t).LinkedTables fk.ReferenceTable = some val ∧
        mapGet (h' val).DependantTables (h t).Name = some t ∧
        mapGet (h' t).Fks fkName = some { fk with References := some val }) ∧
      (mapGet db.Tables fk.ReferenceTable = none ∨ fk.ReferenceTable = (h t).Name →
        mapGet (h' t).Fks fkName = some fk ∧
        mapGet (h' t).LinkedTables fk.ReferenceTable
          = mapGet ((addTableReplace db t h).2 t).LinkedTables fk.ReferenceTable) := by
  unfold AddTable at hadd
  by_cases hdup : (mapGet db.Tables (h t).Name).isSome ∧ errOnDuplicate = true
  · rw [if_pos hdup] at hadd
    cases hadd
  · rw [if_neg hdup] at hadd
    simp only [Result.ret.injEq, and_true] at hadd
    have hname := addTableReplace_Name db t h t
    have hnd0 : (mapKeys ((addTableReplace db t h).2 t).Fks).Nodup :=
      (addTableReplace_keys db t h t).nodup hnd
    have hfks := addTableLinks_Fks (addTableReplace db t h).1.Tables t
      ((addTableReplace db t h).2 t).Fks [] (addTableReplace db t h).2 (by simp)
      (by simpa using hnd0)
    simp only [List.nil_append] at hfks
    have hdb : db' = (addTableStore (addTableReplace db t h).1 t (addTableReplace db t h).2).1 := by
      rw [hadd]
    have hh : h' = (addTableStore (addTableReplace db t h).1 t (addTableReplace db t h).2).2 := by
      rw [hadd]
    simp only [addTableStore] at hdb hh
    subst hdb
    subst hh
    refine ⟨?_, ?_⟩
    · simp only
      rw [addTableLinks_Name, hname, mapGet_mapSet, if_pos rfl]
    · intro fkName fk hmem
      have hnd1 : (mapKeys (((addTableReplace db t h).2 t).Fks.map
          (linkedEntry (addTableReplace db t h).1.Tables))).Nodup := by
        rw [mapKeys_map_linkedEntry]
        exact hnd0
      have hmem1 : linkedEntry (addTableReplace db t h).1.Tables (fkName, fk)
          ∈ ((addTableReplace db t h).2 t).Fks.map
            (linkedEntry (addTableReplace db t h).1.Tables) :=
        List.mem_map.2 ⟨(fkName, fk), hmem, rfl⟩
      refine ⟨?_, ?_⟩
      · intro val hval hne
        have hv : mapGet (addTableReplace db t h).1.Tables fk.ReferenceTable = some val := by
          rw [addTableReplace_Tables, if_neg (fun e => hne e.symm)]
          exact hval
        refine ⟨addTableLinks_Linked _ t fkName fk val hv _ _ hmem, ?_, ?_⟩
        · rw [← hname]
          exact addTableLinks_Dependant _ t fkName fk val hv _ _ hmem
        · rw [hfks]
          have hle : linkedEntry (addTableReplace db t h).1.Tables (fkName, fk)
              = (fkName, { fk with References := some val }) := by
            unfold linkedEntry
            simp only [hv]
          rw [hle] at hmem1
          exact mapGet_of_mem_nodup _ _ _ hnd1 hmem1
      · intro habs
        have hv : mapGet (addTableReplace db t h).1.Tables fk.ReferenceTable = none := by
          rw [addTableReplace_Tables]
          rcases habs with habs | habs
          · by_cases hk : (h t).Name = fk.ReferenceTable
            · rw [if_pos hk]
            · rw [if_neg hk]; exact habs
          · rw [if_pos habs.symm]
        refine ⟨?_, addTableLinks_Linked_absent _ t _ hv _ _⟩
        rw [hfks]
        have hle : linkedEntry (addTableReplace db t h).1.Tables (fkName, fk) = (fkName, fk) := by
          unfold linkedEntry
          simp only [hv]
        rw [hle] at hmem1
        exact mapGet_of_mem_nodup _ _ _ hnd1 hmem1

/-- C8, witness: "a", with its foreign key `fk_ab` to "b", is added to the
graph that holds "b". -/
theorem C8_AddTable_links_keys_with_present_target_witness :
    (mapKeys (pairHeap 0).Fks).Nodup ∧
    AddTable onlyBDb 0 true pairHeap = .ret (addTableStore onlyBDb 0 pairHeap) none ∧
    mapGet (addTableStore onlyBDb 0 pairHeap).1.Tables "a" = some 0 ∧
    mapGet ((addTableStore onlyBDb 0 pairHeap).2 0).LinkedTables "b" = some 1 ∧
    mapGet ((addTableStore onlyBDb 0 pairHeap).2 1).DependantTables "a" = some 0 ∧
    mapGet ((addTableStore onlyBDb 0 pairHeap).2 0).Fks "fk_ab"
      = some { stubFk "fk_ab" "b" "id" with References := some 1 } :=
  have hw := C8_AddTable_links_keys_with_present_target onlyBDb 0 true pairHeap
    (addTableStore onlyBDb 0 pairHeap).1 (addTableStore onlyBDb 0 pairHeap).2
    (by decide) rfl
  have hk := (hw.2 "fk_ab" (stubFk "fk_ab" "b" "id") (by decide)).1 1 (by decide) (by decide)
  ⟨by decide, rfl, hw.1, hk.1, hk.2.1, hk.2.2⟩

/-- A foreign key with a nil reference to a table that is not in the graph
does not stop `LinkAllTables` when the depends-on map of its owner still has
the target name: "a" is linked to "b", replaced, "b" is removed, and "a" is
added again. -/
theorem LinkAllTables_passes_over_stale_link :
    after [.add 1 true, .add 0 true, .add 2 false, .remove 1, .add 0 false]
        (emptyDb, staleHeap) (fun db h => (db.Tables, (h 0).LinkedTables, fkRefs h 0))
      = some ([("a", 0)], [("b", 1)], [("fk_ab", "b", none)]) ∧
    after [.add 1 true, .add 0 true, .add 2 false, .remove 1, .add 0 false]
        (emptyDb, staleHeap) (fun db h => (LinkAllTables db true h).error)
      = some (some none) :=
  ⟨rfl, rfl⟩

/-! ## General facts about the resolver -/

/-- On every graph that holds a table, the resolver panics in its first sweep:
`created` is the nil map when `created[name] = true` is run. -/
theorem GetTablesInCreatableOrder_panics_when_not_empty (db : TableCollection) (h : Heap)
    (fuel : Nat) (e : String × Ptr) (rest : List (String × Ptr))
    (hne : db.Tables = e :: rest) :
    GetTablesInCreatableOrder db h (fuel + 1) = some (.panic nilMapPanic) := by
  obtain ⟨name, tbl⟩ := e
  unfold GetTablesInCreatableOrder resolveFrom
  have hpos : ((db.Tables.length : Nat) : Int) > 0 := by
    rw [hne]
    simp only [List.length_cons]
    omega
  rw [if_pos hpos, hne]
  simp only [sweep, sweepTable]

/-- On the empty graph the resolver returns the empty slice and no error. -/
theorem GetTablesInCreatableOrder_empty (db : TableCollection) (h : Heap) (fuel : Nat)
    (hempty : db.Tables = []) :
    GetTablesInCreatableOrder db h fuel = some (.ret [] none) := by
  unfold GetTablesInCreatableOrder resolveFrom
  rw [hempty]
  cases fuel <;> simp

/-- Whatever `created` starts as, the sweep loop returns the slice `order` as
it was given: no statement of the loop writes it. -/
theorem resolveFrom_returns_order_unwritten (db : TableCollection) (h : Heap)
    (order : List (Option Ptr)) (fuel : Nat) :
    ∀ (created : GoMap Bool) (todo : Int) (o : List (Option Ptr)) (e : Option String),
      resolveFrom db h order fuel created todo = some (.ret o e) → o = order := by
  induction fuel with
  | zero =>
    intro created todo o e hr
    unfold resolveFrom at hr
    split at hr
    · cases hr
    · cases hr; rfl
  | succ n ih =>
    intro created todo o e hr
    unfold resolveFrom at hr
    split at hr
    · simp only at hr
      split at hr
      · cases hr
      · split at hr
        · split at hr
          · cases hr; rfl
          · cases hr
        · exact ih _ _ _ _ hr
    · cases hr; rfl

/-! ## The resolver on concrete graphs -/

/-- C1: a table without foreign keys is added alone to the empty graph. The
claim says the creation order is the one-element sequence holding that table.
The resolver panics on its first store into the nil map `created`; and were
the map made, it would return the slice it allocated, which it never writes:
one nil pointer, not the table. -/
theorem C1_single_table_is_not_returned :
    after [.add 0 true] (emptyDb, singleHeap) (fun db h => (db.Tables, (h 0).Fks))
      = some ([("a", 0)], []) ∧
    after [.add 0 true] (emptyDb, singleHeap) (fun db h => GetTablesInCreatableOrder db h 1)
      = some (some (.panic nilMapPanic)) ∧
    after [.add 0 true] (emptyDb, singleHeap) (fun db h =>
        resolveFrom db h (List.replicate db.Tables.length none) 1 (some []) 1)
      = some (some (.ret [none] none)) := by
  decide

/-- C2: tables "a" and "b" are in each other's depends-on map and "c" depends
on nothing. The claim says the resolver returns an error. It panics on the nil
map `created`; and were the map made, it would return no error, because "c"
is counted again in every sweep until `todo` reaches zero. -/
theorem C2_cycle_beside_free_table_gives_no_error :
    mapGet (cycleHeap 0).LinkedTables "b" = some 1 ∧
    mapGet (cycleHeap 1).LinkedTables "a" = some 0 ∧
    GetTablesInCreatableOrder cycleDb cycleHeap 3 = some (.panic nilMapPanic) ∧
    resolveFrom cycleDb cycleHeap (List.replicate 3 none) 3 (some []) 3
      = some (.ret [none, none, none] none) := by
  decide

/-- C3: the two-table cycle "a" <-> "b", both unmarked, two tables left. The
claim says the diagnosis lists both tables. `getOrderError` stores every line
at index 1 of `missing`, so the line of "a" is overwritten by the line of "b"
and index 0 stays empty (visited in the other order, the line of "a" is the
one that stays); the same error is what the sweep loop returns when `created`
is a made map. -/
theorem C3_diagnosis_keeps_one_table :
    getOrderError twoCycleDb cycleHeap (some [("a", false), ("b", false)]) 2
      = .ret () (some
          "Table sorting error possible circular references:\n\nError resolving b: missing a") ∧
    getOrderError twoCycleDb cycleHeap (some [("b", false), ("a", false)]) 2
      = .ret () (some
          "Table sorting error possible circular references:\n\nError resolving a: missing b") ∧
    resolveFrom twoCycleDb cycleHeap [none, none] 2 (some []) 2
      = some (.ret [none, none] (some
          "Table sorting error possible circular references:\n\nError resolving b: missing a")) := by
  decide

/-- With one table left, `getOrderError` makes `missing` with one entry and
panics on the store at index 1. -/
theorem getOrderError_panics_with_one_left :
    getOrderError { emptyDb with Tables := [("a", 0)] } pairHeap (some [("a", false)]) 1
      = .panic indexPanic := by
  decide

/-! ## The graph operations on concrete graphs -/

/-- C4: a table "a" with a foreign key to itself is added, linked by
`LinkAllTables`, and added again without the duplicate error. `UnlinkTable`
deletes "a" from the depends-on map of "a" (it deletes from `LinkedTables`
where the dependants map was meant) and leaves the dependants map as it is:
afterwards "a" is in its own dependants map and not in its own depends-on
map, so the symmetry the claim states is broken on a reachable graph. -/
theorem C4_symmetry_broken_after_replacing_self_linked_table :
    after [.add 0 true, .link false, .add 0 false] (emptyDb, selfHeap) (fun db h =>
        (db.Tables, (h 0).LinkedTables, (h 0).DependantTables))
      = some ([("a", 0)], [], [("a", 0)]) ∧
    after [.add 0 true, .link false, .add 0 false] (emptyDb, selfHeap) (fun _ h =>
        (dependsOn h 0 0, dependantOf h 0 0))
      = some (false, true) := by
  decide

/-- The same break without adding a table twice, read by name: "a" is linked
to "b", removed with `RemoveTable`, and another table named "a" is added.
The dependants map of "b" still has the key "a", and the table now stored
under "a" has an empty depends-on map. -/
theorem symmetry_broken_by_name_after_remove :
    after [.add 1 true, .add 0 true, .remove 0, .add 2 true] (emptyDb, staleHeap)
        (fun db h => (db.Tables, (h 1).DependantTables, (h 2).LinkedTables))
      = some ([("b", 1), ("a", 2)], [("a", 0)], []) := by
  decide

/-- C5: "a" depends on "b" through the linked key `fk_ab`, then `RemoveTable`
is called on "b" (and, from the same state, `RemoveTableByName` on its name).
The claim says "b" leaves the depends-on map of "a" and `fk_ab` leaves the
foreign keys of "a". `RemoveTable` only deletes the key "b" of the
collection: the depends-on entry and the key stay, with the reference still
on "b", and the resolver does not return an order for "a". -/
theorem C5_remove_leaves_links :
    after [.add 1 true, .add 0 true] (emptyDb, pairHeap) (fun db h =>
        (db.Tables, (h 0).LinkedTables, fkRefs h 0))
      = some ([("b", 1), ("a", 0)], [("b", 1)], [("fk_ab", "b", some 1)]) ∧
    after [.add 1 true, .add 0 true, .remove 1] (emptyDb, pairHeap) (fun db h =>
        (db.Tables, (h 0).LinkedTables, fkRefs h 0))
      = some ([("a", 0)], [("b", 1)], [("fk_ab", "b", some 1)]) ∧
    after [.add 1 true, .add 0 true] (emptyDb, pairHeap) (fun db h =>
        (RemoveTableByName db "b" h).value.map (fun s => (s.1.Tables, (s.2 0).LinkedTables,
          fkRefs s.2 0)))
      = some (some ([("a", 0)], [("b", 1)], [("fk_ab", "b", some 1)])) ∧
    after [.add 1 true, .add 0 true, .remove 1] (emptyDb, pairHeap) (fun db h =>
        GetTablesInCreatableOrder db h 1)
      = some (some (.panic nilMapPanic)) ∧
    after [.add 1 true, .add 0 true, .remove 1] (emptyDb, pairHeap) (fun db h =>
        resolveFrom db h [none] 1 (some []) 1)
      = some (some (.panic indexPanic)) :=
  ⟨rfl, rfl, rfl, rfl, rfl⟩

/-- C9: "a" owns two foreign keys to "b" and is added before "b", then
`LinkAllTables` is called. The claim says every foreign key is resolved when
no error is returned. The call returns no error, with either flag, and the
second key keeps a nil reference: once the first key has put "b" into the
depends-on map of "a", the second is taken as linked already. -/
theorem C9_second_key_to_same_table_stays_unresolved :
    after [.add 0 true, .add 1 true] (emptyDb, twoFkHeap) (fun db h =>
        (db.Tables, fkRefs h 0))
      = some ([("a", 0), ("b", 1)], [("fk_1", "b", none), ("fk_2", "b", none)]) ∧
    after [.add 0 true, .add 1 true] (emptyDb, twoFkHeap) (fun db h =>
        ((LinkAllTables db true h).error, (LinkAllTables db false h).error))
      = some (some none, some none) ∧
    after [.add 0 true, .add 1 true] (emptyDb, twoFkHeap) (fun db h =>
        (LinkAllTables db true h).value.map (fun h1 => fkRefs h1 0))
      = some (some [("fk_1", "b", some 1), ("fk_2", "b", none)]) ∧
    after [.add 0 true, .add 1 true] (emptyDb, twoFkHeap) (fun db h =>
        (LinkAllTables db false h).value.map (fun h1 => fkRefs h1 0))
      = some (some [("fk_1", "b", some 1), ("fk_2", "b", none)]) :=
  ⟨rfl, rfl, rfl, rfl⟩

/-- C7, counterexample: "a" has foreign keys to "b" (present) and to "x"
(absent). `LinkAllTables` returns the missing-table error at the second key,
after it has linked the first: the depends-on map of "a", the dependants map
of "b" and the reference of `fk_ab` are no longer as before the call. -/
theorem C7_error_after_some_links :
    after [.add 0 true, .add 1 true] (emptyDb, missingHeap) (fun _ h =>
        ((h 0).LinkedTables, (h 1).DependantTables, fkRefs h 0))
      = some ([], [], [("fk_ab", "b", none), ("fk_ax", "x", none)]) ∧
    after [.add 0 true, .add 1 true] (emptyDb, missingHeap) (fun db h =>
        (LinkAllTables db true h).error)
      = some (some (some (errMissingReferencedTable "x"))) ∧
    after [.add 0 true, .add 1 true] (emptyDb, missingHeap) (fun db h =>
        (LinkAllTables db true h).value.map (fun h1 =>
          ((h1 0).LinkedTables, (h1 1).DependantTables, fkRefs h1 0)))
      = some (some ([("b", 1)], [("a", 0)], [("fk_ab", "b", some 1), ("fk_ax", "x", none)])) :=
  ⟨rfl, rfl, rfl⟩

/-- C8, counterexample: the graph holds a table "a"; a second table named "a",
with a foreign key to "a", is added without the duplicate error. The target
name "a" was a key of the graph before the call, the call succeeds, and the
key is not linked: the stored table is deleted before the keys are looked at. -/
theorem C8_key_to_replaced_name_is_not_linked :
    after [.add 0 true] (emptyDb, replaceHeap) (fun db h => (db.Tables, fkRefs h 1))
      = some ([("a", 0)], [("fk_self", "a", none)]) ∧
    after [.add 0 true] (emptyDb, replaceHeap) (fun db h => (AddTable db 1 false h).error)
      = some (some none) ∧
    after [.add 0 true] (emptyDb, replaceHeap) (fun db h =>
        (AddTable db 1 false h).value.map (fun s =>
          (s.1.Tables, (s.2 1).LinkedTables, fkRefs s.2 1)))
      = some (some ([("a", 1)], [], [("fk_self", "a", none)])) :=
  ⟨rfl, rfl, rfl⟩

/-! ## The statement parser on a broken statement -/

/-- C10: a statement with a column line that `NewFieldFromString` rejects and
an index line that `AddIndexFromString` rejects. The claim says the error of
the failing line is returned and no table. `NewTableFromQuery` returns a table
and the nil error: the table has neither the column nor the index. -/
theorem C10_builder_errors_are_dropped :
    (NewFieldFromString "`id` int").error
      = some (some "Unable to extract field name and type from `id` int") ∧
    (AddIndexFromString (newTable brokenStmt) "KEY bad").error
      = some (some "Unable to reliably parse idx line KEY bad") ∧
    NewTableFromQuery brokenStmt = .ret (some (newTable brokenStmt)) none ∧
    (newTable brokenStmt).Fields = [] ∧ (newTable brokenStmt).Indexes = none := by
  decide

/-- The loop of `NewTableFromQuery` never returns an error. -/
theorem assembleLines_no_error (ls : List String) :
    ∀ (t : Table) (e : String) (v : Option Table), assembleLines t ls ≠ .ret v (some e) := by
  induction ls with
  | nil => intro t e v hr; simp [assembleLines] at hr
  | cons l0 rest ih =>
    intro t e v hr
    unfold assembleLines at hr
    split at hr
    · cases hr
    · split at hr
      · split at hr
        · cases hr
        · exact ih _ _ _ hr
        · cases hr
      · split at hr
        · split at hr
          · exact ih _ _ _ hr
          · cases hr
        · split at hr
          · split at hr
            · cases hr
            · exact ih _ _ _ hr
            · cases hr
          · split at hr
            · exact ih _ _ _ hr
            · cases hr

/-- Whatever the statement, `NewTableFromQuery` returns no error: it returns a
table with the nil error, or it panics. -/
theorem NewTableFromQuery_no_error (q e : String) (v : Option Table) :
    NewTableFromQuery q ≠ .ret v (some e) := by
  intro hr
  unfold NewTableFromQuery at hr
  simp only at hr
  split at hr
  · cases hr
  · split at hr
    · cases hr
    · exact assembleLines_no_error _ _ _ _ hr

/-! ## AddTable and its duplicate error -/

/-- C12: `AddTable` returns an error exactly when `errOnDuplicate` is set and a
table is stored under the name of `t`; the error is the duplicate-table error,
and the collection and the heap it returns are the ones it was given, so no
table, depends-on map, dependants map or reference has changed and `t` is
linked to nothing new. -/
theorem C12_AddTable_duplicate_error (db : TableCollection) (t : Ptr) (errOnDuplicate : Bool)
    (h : Heap) :
    ((∃ msg, (AddTable db t errOnDuplicate h).error = some (some msg)) ↔
      (errOnDuplicate = true ∧ (mapGet db.Tables (h t).Name).isSome = true)) ∧
    (∀ s msg, AddTable db t errOnDuplicate h = .ret s (some msg) →
      s = (db, h) ∧ msg = errDuplicateTable (h t).Name db.Name) := by
  unfold AddTable
  by_cases hdup : (mapGet db.Tables (h t).Name).isSome ∧ errOnDuplicate = true
  · rw [if_pos hdup]
    refine ⟨⟨fun _ => ⟨hdup.2, hdup.1⟩, fun _ => ⟨_, rfl⟩⟩, ?_⟩
    intro s msg hr
    cases hr
    exact ⟨rfl, rfl⟩
  · rw [if_neg hdup]
    refine ⟨⟨?_, fun hc => absurd ⟨hc.2, hc.1⟩ hdup⟩, ?_⟩
    · rintro ⟨msg, hmsg⟩
      simp [Result.error] at hmsg
    · intro s msg hr
      cases hr

/-- C12, witness: "a" is stored, and a second table named "a" is added with
the duplicate error asked for. -/
theorem C12_AddTable_duplicate_error_witness :
    AddTable onlyADb 1 true replaceHeap
      = .ret (onlyADb, replaceHeap) (some (errDuplicateTable "a" "db")) ∧
    (AddTable onlyADb 1 false replaceHeap).error = some none :=
  have hw := C12_AddTable_duplicate_error onlyADb 1 true replaceHeap
  have he : ∃ msg, (AddTable onlyADb 1 true replaceHeap).error = some (some msg) :=
    hw.1.2 ⟨rfl, by decide⟩
  ⟨by
    obtain ⟨msg, hmsg⟩ := he
    cases hr : AddTable onlyADb 1 true replaceHeap with
    | panic m => rw [hr] at hmsg; cases hmsg
    | ret s e =>
      rw [hr] at hmsg
      simp only [Result.error, Option.some.injEq] at hmsg
      subst hmsg
      obtain ⟨hs, hm⟩ := hw.2 s msg hr
      rw [hs, hm]
      rfl,
   rfl⟩
/-! ## `LinkAllTables` on a foreign key to an absent field -/

/-- C13: "a" has a foreign key to the field "nope" of "b", which "b" does not
have, and is added after "b", so that `AddTable` links it. The claim says
`LinkAllTables(true)` returns the faulty-field error. On the branch of an
existing link the error message reads the name through the nil `*Field` of
the failed lookup, and the call panics. Added before "b", the same key is not
linked yet and takes the other branch, which returns the error. -/
theorem C13_linked_key_to_absent_field_panics :
    after [.add 1 true, .add 0 true] (emptyDb, danglingHeap) (fun db h =>
        (db.Tables, (h 0).LinkedTables, fkRefs h 0))
      = some ([("b", 1), ("a", 0)], [("b", 1)], [("fk_ab", "b", some 1)]) ∧
    after [.add 1 true, .add 0 true] (emptyDb, danglingHeap) (fun _ h =>
        mapGet (h 1).Fields "nope")
      = some none ∧
    after [.add 1 true, .add 0 true] (emptyDb, danglingHeap) (fun db h =>
        ((LinkAllTables db true h).error, (LinkAllTables db true h).panicMessage))
      = some (none, some nilDerefPanic) ∧
    after [.add 0 true, .add 1 true] (emptyDb, danglingHeap) (fun db h =>
        (LinkAllTables db true h).error)
      = some (some (some (errDanglingFieldReference "fk_ab" "nope" "b"))) :=
  ⟨rfl, rfl, rfl, rfl⟩

/-! ## `UnlinkTable` and the dependants map -/

/-- C17: "a" depends on "b" through the linked key `fk_ab`, and `UnlinkTable`
is called on "a". The claim says the dependants map of "b" no longer contains
"a". `UnlinkTable` deletes the name of "a" from the depends-on map of "b",
where the dependants map was meant: the dependants map of "b" still holds
"a". The references of the keys of "a" are cleared, as the claim says. -/
theorem C17_unlink_leaves_dependants_entry :
    after [.add 1 true, .add 0 true] (emptyDb, pairHeap) (fun _ h =>
        ((h 0).LinkedTables, (h 1).DependantTables, fkRefs h 0))
      = some ([("b", 1)], [("a", 0)], [("fk_ab", "b", some 1)]) ∧
    after [.add 1 true, .add 0 true] (emptyDb, pairHeap) (fun _ h =>
        ((UnlinkTable 0 h 1).DependantTables, dependantOf (UnlinkTable 0 h) 1 0,
          fkRefs (UnlinkTable 0 h) 0))
      = some ([("a", 0)], true, [("fk_ab", "b", none)]) :=
  ⟨rfl, rfl⟩

/-! ## The resolver on a chain and on a table with an absent dependency -/

/-- C15: the chain "a" depends on "b" depends on "c", every dependency in the
graph. The claim says the resolver returns no error. It panics on the store
into the nil map `created`; with the map made, the sweep loop returns no
error. -/
theorem C15_chain_panics :
    after [.add 2 true, .add 1 true, .add 0 true] (emptyDb, chainHeap) (fun db _ => db.Tables)
      = some [("c", 2), ("b", 1), ("a", 0)] ∧
    after [.add 2 true, .add 1 true, .add 0 true] (emptyDb, chainHeap) (fun _ h =>
        ((h 0).LinkedTables, (h 1).LinkedTables, (h 2).LinkedTables))
      = some ([("b", 1)], [("c", 2)], []) ∧
    after [.add 2 true, .add 1 true, .add 0 true] (emptyDb, chainHeap) (fun db h =>
        GetTablesInCreatableOrder db h 3)
      = some (some (.panic nilMapPanic)) ∧
    after [.add 2 true, .add 1 true, .add 0 true] (emptyDb, chainHeap) (fun db h =>
        resolveFrom db h [none, none, none] 3 (some []) 3)
      = some (some (.ret [none, none, none] none)) := by
  decide

/-- C19: one table "a" whose depends-on map holds "b", which is not in the
graph; and one table "a" with an empty depends-on map. The claim says the
resolver returns an error on the first graph and no error on the second. It
panics on both, on the store into the nil map `created`. With the map made it
would still panic on the first graph, in `getOrderError`, which makes
`missing` with one entry and stores at index 1. -/
theorem C19_resolver_panics_where_an_outcome_is_claimed :
    after [.add 1 true, .add 0 true, .remove 1] (emptyDb, pairHeap) (fun db h =>
        (db.Tables, (h 0).LinkedTables))
      = some ([("a", 0)], [("b", 1)]) ∧
    after [.add 1 true, .add 0 true, .remove 1] (emptyDb, pairHeap) (fun db h =>
        GetTablesInCreatableOrder db h 1)
      = some (some (.panic nilMapPanic)) ∧
    after [.add 1 true, .add 0 true, .remove 1] (emptyDb, pairHeap) (fun db h =>
        resolveFrom db h [none] 1 (some []) 1)
      = some (some (.panic indexPanic)) ∧
    after [.add 0 true] (emptyDb, singleHeap) (fun db h => (db.Tables, (h 0).LinkedTables))
      = some ([("a", 0)], []) ∧
    after [.add 0 true] (emptyDb, singleHeap) (fun db h => GetTablesInCreatableOrder db h 1)
      = some (some (.panic nilMapPanic)) :=
  ⟨by decide, by decide, by decide, by decide, by decide⟩

/-! ## The statement parser and the table name -/

/-- C14: a statement whose first line names the table "t" and which has no
clause line. The claim says the table returned is named "t". The name found
is assigned to the variable `name` and never to the table: the table returned
has the empty name. Its statement text is the input, as the claim says. -/
theorem C14_table_name_is_not_set :
    p.generic.FindStringSubmatch "CREATE TABLE `t` (" = ["`t`", "t"] ∧
    NewTableFromQuery bareStmt = .ret (some (newTable bareStmt)) none ∧
    (newTable bareStmt).Name = "" ∧ (newTable bareStmt).CreateStmt = bareStmt := by
  decide
/-- Whatever the statement, a table that `NewTableFromQuery` returns has the
empty name, and the statement as its text. -/
theorem NewTableFromQuery_name_empty (q : String) (t : Table) (e : Option String)
    (hr : NewTableFromQuery q = .ret (some t) e) : t.Name = "" ∧ t.CreateStmt = q := by
  have hpk : ∀ (t0 t1 : Table) (pk : String) (e1 : Option String),
      AddPrimaryKeyFromString t0 pk = .ret t1 e1 →
      t1.Name = t0.Name ∧ t1.CreateStmt = t0.CreateStmt := by
    intro t0 t1 pk e1 h1
    unfold AddPrimaryKeyFromString at h1
    simp only at h1
    split at h1
    · cases h1; exact ⟨rfl, rfl⟩
    · unfold primaryKeyFields at h1
      split at h1
      · cases h1; exact ⟨rfl, rfl⟩
      · split at h1
        · cases h1
        · cases h1; exact ⟨rfl, rfl⟩
  have hidx : ∀ (t0 t1 : Table) (idx : String) (e1 : Option String),
      AddIndexFromString t0 idx = .ret t1 e1 →
      t1.Name = t0.Name ∧ t1.CreateStmt = t0.CreateStmt := by
    intro t0 t1 idx e1 h1
    unfold AddIndexFromString at h1
    simp only at h1
    split at h1
    · cases h1; exact ⟨rfl, rfl⟩
    · unfold indexFields at h1
      split at h1
      · split at h1
        · cases h1
        · cases h1; exact ⟨rfl, rfl⟩
      · split at h1
        · cases h1
        · cases h1; exact ⟨rfl, rfl⟩
  have hloop : ∀ (ls : List String) (t0 : Table),
      assembleLines t0 ls = .ret (some t) e → t.Name = t0.Name ∧ t.CreateStmt = t0.CreateStmt := by
    intro ls
    induction ls with
    | nil =>
      intro t0 h1
      simp only [assembleLines] at h1
      cases h1
      exact ⟨rfl, rfl⟩
    | cons l0 rest ih =>
      intro t0 h1
      unfold assembleLines at h1
      split at h1
      · cases h1
      · split at h1
        · split at h1
          · cases h1
          · exact ih _ h1
          · cases h1
        · split at h1
          · split at h1
            · rename_i t1 e1 heq
              obtain ⟨h2, h3⟩ := ih _ h1
              obtain ⟨h4, h5⟩ := hpk _ _ _ _ heq
              exact ⟨h2.trans h4, h3.trans h5⟩
            · cases h1
          · split at h1
            · split at h1
              · cases h1
              · exact ih _ h1
              · cases h1
            · split at h1
              · rename_i t1 e1 heq
                obtain ⟨h2, h3⟩ := ih _ h1
                obtain ⟨h4, h5⟩ := hidx _ _ _ _ heq
                exact ⟨h2.trans h4, h3.trans h5⟩
              · cases h1
  unfold NewTableFromQuery at hr
  simp only at hr
  split at hr
  · cases hr
  · split at hr
    · cases hr
    · exact hloop _ _ hr

/-! ## The flags of a field -/

/-- C18: when `NewFieldFromString` succeeds, the attribute text of the field
is the captures after the datatype joined by spaces, and with that text in
lower case: the field is unsigned exactly when the text contains "unsigned",
not nullable exactly when it contains "not null", auto-increment exactly when
it contains "auto_increment", and its default value is non-empty only when
the text contains "default ". -/
theorem C18_field_flags_follow_attribute_text (fStmt : String) (f : Field) (e : Option String)
    (hok : NewFieldFromString fStmt = .ret (some f) e) :
    f.Attributes = " ".intercalate ((p.fieldDef.FindStringSubmatch fStmt).drop 3) ∧
    (f.Signed = false ↔ Contains (ToLower f.Attributes) "unsigned" = true) ∧
    (f.Nullable = false ↔ Contains (ToLower f.Attributes) "not null" = true) ∧
    (f.AutoIncrement = true ↔ Contains (ToLower f.Attributes) "auto_increment" = true) ∧
    (f.DefaultValue ≠ "" → Contains (ToLower f.Attributes) "default " = true) := by
  unfold NewFieldFromString at hok
  simp only at hok
  split at hok
  · cases hok
  · cases hok
    refine ⟨rfl, ?_, ?_, Iff.rfl, ?_⟩
    · simp
    · simp
    · intro hd
      by_contra hc
      simp only [Bool.not_eq_true] at hc
      simp [hc] at hd

/-- C18, witness: an unsigned, not nullable auto-increment column. -/
theorem C18_field_flags_follow_attribute_text_witness :
    ∃ f, NewFieldFromString "`id` int(11) unsigned NOT NULL AUTO_INCREMENT," = .ret (some f) none ∧
      f.Attributes = "unsigned NOT NULL AUTO_INCREMENT " ∧
      f.Signed = false ∧ f.Nullable = false ∧ f.AutoIncrement = true ∧ f.DefaultValue = "" ∧
      (f.Signed = false ↔ Contains (ToLower f.Attributes) "unsigned" = true) :=
  ⟨{ Name := "id", Datatype := "int(11)", DefaultValue := "",
      Attributes := "unsigned NOT NULL AUTO_INCREMENT ", Nullable := false,
      AutoIncrement := true, IsPK := false, Signed := false },
    by decide, rfl, rfl, rfl, rfl, rfl,
    (C18_field_flags_follow_attribute_text "`id` int(11) unsigned NOT NULL AUTO_INCREMENT," _
      none (by decide)).2.1⟩
/-! ## The sweep loop ends -/

/-- A table visited in a sweep leaves `todo` as it is or lowers it by one. -/
theorem sweepTable_le (h : Heap) (name : String) (tbl : Ptr) (created created1 : GoMap Bool)
    (todo todo1 : Int) (hs : sweepTable h name tbl created todo = some (created1, todo1)) :
    todo1 ≤ todo := by
  unfold sweepTable at hs
  cases created with
  | none => cases hs
  | some c =>
    simp only [Option.some.injEq, Prod.mk.injEq] at hs
    obtain ⟨_, ht⟩ := hs
    rw [← ht]
    split <;> omega

/-- A sweep never raises `todo`. -/
theorem sweep_le (h : Heap) (ts : List (String × Ptr)) :
    ∀ (created created1 : GoMap Bool) (todo todo1 : Int),
      sweep h ts created todo = some (created1, todo1) → todo1 ≤ todo := by
  induction ts with
  | nil =>
    intro created created1 todo todo1 hs
    simp only [sweep, Option.some.injEq, Prod.mk.injEq] at hs
    omega
  | cons x rest ih =>
    obtain ⟨name, tbl⟩ := x
    intro created created1 todo todo1 hs
    simp only [sweep] at hs
    cases hst : sweepTable h name tbl created todo with
    | none => rw [hst] at hs; cases hs
    | some r =>
      obtain ⟨c2, t2⟩ := r
      rw [hst] at hs
      have h1 := sweepTable_le h name tbl created c2 todo t2 hst
      have h2 := ih c2 created1 t2 todo1 hs
      omega

/-- From any `created` and any `todo`, the sweep loop ends within `fuel`
sweeps when `fuel` is at least `todo`. -/
theorem resolveFrom_ends (db : TableCollection) (h : Heap) (order : List (Option Ptr))
    (fuel : Nat) :
    ∀ (created : GoMap Bool) (todo : Int), todo ≤ fuel →
      ∃ r, resolveFrom db h order fuel created todo = some r := by
  induction fuel with
  | zero =>
    intro created todo hle
    unfold resolveFrom
    have hn : ¬ todo > 0 := by omega
    rw [if_neg hn]
    exact ⟨_, rfl⟩
  | succ n ih =>
    intro created todo hle
    unfold resolveFrom
    by_cases hpos : todo > 0
    · rw [if_pos hpos]
      simp only
      cases hs : sweep h db.Tables created todo with
      | none => exact ⟨_, rfl⟩
      | some r =>
        obtain ⟨c1, t1⟩ := r
        simp only
        by_cases heq : todo = t1
        · rw [if_pos heq]
          cases getOrderError db h c1 t1 with
          | ret v err => exact ⟨_, rfl⟩
          | panic msg => exact ⟨_, rfl⟩
        · rw [if_neg heq]
          have hle1 := sweep_le h db.Tables created c1 todo t1 hs
          exact ih c1 t1 (by omega)
    · rw [if_neg hpos]
      exact ⟨_, rfl⟩

/-- The sweep loop of the resolver ends within n sweeps on a graph of n
tables, whatever `created` is when it starts: with fuel for n sweeps it has a
result, from the nil map the code declares (where that result is the panic of
the first store) and from any other `created`; with no table it returns at
once, without a sweep. A sweep that completes never raises the counter `todo`,
and after a sweep that left it as it was the loop ends with what
`getOrderError` gives. -/
theorem resolveFrom_ends_within_n_sweeps (db : TableCollection) (h : Heap) (fuel : Nat)
    (hfuel : db.Tables.length ≤ fuel) :
    (∃ r, GetTablesInCreatableOrder db h fuel = some r) ∧
    (∀ created, ∃ r, resolveFrom db h (List.replicate db.Tables.length none) fuel created
      db.Tables.length = some r) ∧
    (db.Tables = [] → GetTablesInCreatableOrder db h 0 = some (.ret [] none)) ∧
    (∀ created todo created1 todo1 order n, 0 < todo →
      sweep h db.Tables created todo = some (created1, todo1) →
      todo1 < todo ∨
      (todo1 = todo ∧ resolveFrom db h order (n + 1) created todo
        = some (match getOrderError db h created1 todo1 with
          | .ret _ err => .ret order err
          | .panic msg => .panic msg))) := by
  refine ⟨?_, ?_, ?_, ?_⟩
  · exact resolveFrom_ends db h _ fuel none _ (by exact_mod_cast hfuel)
  · intro created
    exact resolveFrom_ends db h _ fuel created _ (by exact_mod_cast hfuel)
  · intro hempty
    exact GetTablesInCreatableOrder_empty db h 0 hempty
  · intro created todo created1 todo1 order n hpos hs
    have hle := sweep_le h db.Tables created created1 todo todo1 hs
    by_cases heq : todo = todo1
    · right
      refine ⟨heq.symm, ?_⟩
      unfold resolveFrom
      rw [if_pos hpos]
      simp only [hs, if_pos heq]
      cases getOrderError db h created1 todo1 <;> rfl
    · left
      omega

/-- C16: tables "b" and "a" are added, "a" with a foreign key to "b". The
claim says that every sweep of the resolver lowers the counter or returns the
failure. The first sweep does neither: on every graph that holds a table, the
store `created[name] = true` into the nil map `created` panics before the
sweep has visited one table, and the call ends by that panic. -/
theorem C16_first_sweep_panics :
    (∀ (h : Heap) (name : String) (tbl : Ptr) (rest : List (String × Ptr)) (todo : Int),
      sweep h ((name, tbl) :: rest) none todo = none) ∧
    after [.add 1 true, .add 0 true] (emptyDb, pairHeap) (fun db h =>
        (mapKeys db.Tables, (h 0).LinkedTables))
      = some (["b", "a"], [("b", 1)]) ∧
    after [.add 1 true, .add 0 true] (emptyDb, pairHeap) (fun db h =>
        sweep h db.Tables none 2)
      = some none ∧
    after [.add 1 true, .add 0 true] (emptyDb, pairHeap) (fun db h =>
        GetTablesInCreatableOrder db h 2)
      = some (some (.panic nilMapPanic)) :=
  ⟨fun _ _ _ _ _ => rfl, by decide, by decide, by decide⟩

/-! ## The sweep loop when `created` is a made map -/

/-- A depends-on map whose every name is `name` is fulfilled once `name` is
marked. -/
theorem depsFulfilled_of_self (c : List (String × Bool)) (name : String)
    (hc : mapGet c name = some true) (deps : List (String × Ptr))
    (hself : ∀ e ∈ deps, e.1 = name) : depsFulfilled c deps = true := by
  induction deps with
  | nil => rfl
  | cons x rest ih =>
    obtain ⟨d, q⟩ := x
    have hd : d = name := hself (d, q) (List.mem_cons_self _ _)
    subst hd
    simp only [depsFulfilled, hc, if_true]
    exact ih (fun e he => hself e (List.mem_cons_of_mem _ he))

/-- With a made map, a sweep runs to its end, never raises `todo`, and lowers
it when it visits a table whose depends-on map holds no name but its own. -/
theorem sweep_made (h : Heap) (ts : List (String × Ptr)) :
    ∀ (c : List (String × Bool)) (todo : Int),
      ∃ c1 todo1, sweep h ts (some c) todo = some (some c1, todo1) ∧ todo1 ≤ todo ∧
        ((∃ x ∈ ts, ∀ e ∈ (h x.2).LinkedTables, e.1 = x.1) → todo1 < todo) := by
  induction ts with
  | nil =>
    intro c todo
    refine ⟨c, todo, rfl, le_refl _, ?_⟩
    rintro ⟨x, hx, _⟩
    simp at hx
  | cons x rest ih =>
    obtain ⟨name, tbl⟩ := x
    intro c todo
    obtain ⟨c1, t1, hs, hle, hfree⟩ := ih
      (if depsFulfilled (mapSet c name true) (h tbl).LinkedTables then mapSet c name true
        else mapSet (mapSet c name true) name false)
      (if mapGet (if depsFulfilled (mapSet c name true) (h tbl).LinkedTables
          then mapSet c name true else mapSet (mapSet c name true) name false) name = some true
        then todo - 1 else todo)
    refine ⟨c1, t1, ?_, ?_, ?_⟩
    · simp only [sweep, sweepTable]
      exact hs
    · have : (if mapGet (if depsFulfilled (mapSet c name true) (h tbl).LinkedTables
          then mapSet c name true else mapSet (mapSet c name true) name false) name = some true
          then todo - 1 else todo) ≤ todo := by
        split <;> omega
      omega
    · rintro ⟨y, hy, hself⟩
      rcases List.mem_cons.1 hy with hhead | htail
      · subst hhead
        have hc : mapGet (mapSet c name true) name = some true := by
          rw [mapGet_mapSet, if_pos rfl]
        have hd := depsFulfilled_of_self (mapSet c name true) name hc (h tbl).LinkedTables hself
        simp only [hd, if_true, hc] at hle
        omega
      · have hlt := hfree ⟨y, htail, hself⟩
        have : (if mapGet (if depsFulfilled (mapSet c name true) (h tbl).LinkedTables
            then mapSet c name true else mapSet (mapSet c name true) name false) name
            = some true then todo - 1 else todo) ≤ todo := by
          split <;> omega
        omega

/-- Were `created` a made map: as soon as one table of the graph has a
depends-on map with no name but its own (an empty map for one), the sweep
loop returns no error, whatever the other tables depend on. -/
theorem resolveFrom_made_with_free_table (db : TableCollection) (h : Heap)
    (order : List (Option Ptr))
    (hfree : ∃ x ∈ db.Tables, ∀ e ∈ (h x.2).LinkedTables, e.1 = x.1) (fuel : Nat) :
    ∀ (c : List (String × Bool)) (todo : Int), todo ≤ fuel →
      resolveFrom db h order fuel (some c) todo = some (.ret order none) := by
  induction fuel with
  | zero =>
    intro c todo hle
    unfold resolveFrom
    have hn : ¬ todo > 0 := by omega
    rw [if_neg hn]
  | succ n ih =>
    intro c todo hle
    unfold resolveFrom
    by_cases hpos : todo > 0
    · rw [if_pos hpos]
      obtain ⟨c1, t1, hs, _, hlt⟩ := sweep_made h db.Tables c todo
      have hlt1 := hlt hfree
      have hne : ¬ todo = t1 := by omega
      simp only [hs, if_neg hne]
      exact ih c1 t1 (by omega)
    · rw [if_neg hpos]

/-- A graph whose depends-on names are all tables of the graph, and ranked so
that a table ranks above what it depends on, holds a table with an empty
depends-on map when it holds a table. -/
theorem exists_table_without_dependency (db : TableCollection) (h : Heap) (rank : String → Nat)
    (hrank : ∀ x ∈ db.Tables, ∀ e ∈ (h x.2).LinkedTables,
      ∃ y ∈ db.Tables, y.1 = e.1 ∧ rank e.1 < rank x.1) (n : Nat) :
    ∀ x ∈ db.Tables, rank x.1 ≤ n → ∃ y ∈ db.Tables, (h y.2).LinkedTables = [] := by
  induction n with
  | zero =>
    intro x hx hle
    cases hl : (h x.2).LinkedTables with
    | nil => exact ⟨x, hx, hl⟩
    | cons e rest =>
      obtain ⟨y, _, _, hlt⟩ := hrank x hx e (by rw [hl]; exact List.mem_cons_self _ _)
      omega
  | succ m ih =>
    intro x hx hle
    cases hl : (h x.2).LinkedTables with
    | nil => exact ⟨x, hx, hl⟩
    | cons e rest =>
      obtain ⟨y, hy, hye, hlt⟩ := hrank x hx e (by rw [hl]; exact List.mem_cons_self _ _)
      exact ih y hy (by rw [hye]; omega)

/-- Were `created` a made map: on a graph whose depends-on names are all
tables of the graph and whose depends-on relation has no cycle, the sweep
loop returns no error. -/
theorem resolveFrom_made_acyclic (db : TableCollection) (h : Heap) (rank : String → Nat)
    (hrank : ∀ x ∈ db.Tables, ∀ e ∈ (h x.2).LinkedTables,
      ∃ y ∈ db.Tables, y.1 = e.1 ∧ rank e.1 < rank x.1) (fuel : Nat)
    (hfuel : db.Tables.length ≤ fuel) :
    resolveFrom db h (List.replicate db.Tables.length none) fuel (some []) db.Tables.length
      = some (.ret (List.replicate db.Tables.length none) none) := by
  cases hts : db.Tables with
  | nil =>
    unfold resolveFrom
    simp
  | cons x rest =>
    have hx : x ∈ db.Tables := by rw [hts]; exact List.mem_cons_self _ _
    obtain ⟨y, hy, hnil⟩ := exists_table_without_dependency db h rank hrank (rank x.1) x hx
      (le_refl _)
    rw [← hts]
    apply resolveFrom_made_with_free_table db h _ ⟨y, hy, by rw [hnil]; intro e he; cases he⟩
    exact_mod_cast hfuel
/-! ## `LinkAllTables` a second time -/

theorem mem_mapSet {V : Type} (m : List (String × V)) (k : String) (v : V) (e : String × V)
    (he : e ∈ mapSet m k v) : e ∈ m ∨ e = (k, v) := by
  induction m with
  | nil =>
    simp only [mapSet, List.mem_singleton] at he
    exact Or.inr he
  | cons x rest ih =>
    obtain ⟨k0, v0⟩ := x
    by_cases h0 : k0 = k
    · simp only [mapSet, h0, if_true] at he
      rcases List.mem_cons.1 he with h1 | h1
      · exact Or.inr h1
      · exact Or.inl (List.mem_cons_of_mem _ h1)
    · simp only [mapSet, h0, if_false] at he
      rcases List.mem_cons.1 he with h1 | h1
      · exact Or.inl (h1 ▸ List.mem_cons_self _ _)
      · rcases ih h1 with h2 | h2
        · exact Or.inl (List.mem_cons_of_mem _ h2)
        · exact Or.inr h2

theorem keepsDependsOn_refl (h : Heap) : keepsDependsOn h h :=
  fun _ => ⟨rfl, rfl, fun _ _ hk => hk⟩

theorem keepsDependsOn_trans (h h1 h2 : Heap) (h01 : keepsDependsOn h h1)
    (h12 : keepsDependsOn h1 h2) : keepsDependsOn h h2 := by
  intro q
  obtain ⟨a1, a2, a3⟩ := h01 q
  obtain ⟨b1, b2, b3⟩ := h12 q
  exact ⟨b1.trans a1, b2.trans a2, fun k v hk => b3 k v (a3 k v hk)⟩

/-- A settled key stays settled in a heap that keeps the depends-on entries. -/
theorem fkSettled_of_keeps (c : Bool) (h h1 : Heap) (tbl : Ptr) (fk : Fk)
    (hk : keepsDependsOn h h1) (hs : fkSettled c h tbl fk) : fkSettled c h1 tbl fk := by
  obtain ⟨link, hl, hf⟩ := hs
  refine ⟨link, (hk tbl).2.2 _ _ hl, fun hc => ?_⟩
  rw [(hk link).2.1]
  exact hf hc

/-- Whether a key is settled depends on its target table and target field
only. -/
theorem fkSettled_congr (c : Bool) (h : Heap) (tbl : Ptr) (fk fk1 : Fk)
    (ht : fk1.ReferenceTable = fk.ReferenceTable) (hf : fk1.ReferenceField = fk.ReferenceField)
    (hs : fkSettled c h tbl fk) : fkSettled c h tbl fk1 := by
  unfold fkSettled at hs ⊢
  rw [ht, hf]
  exact hs

/-- `LinkAllTables` passes over a settled key. -/
theorem linkFk_settled (db : TableCollection) (c : Bool) (tbl : Ptr) (n : String) (fk : Fk)
    (h : Heap) (hs : fkSettled c h tbl fk) : linkFk db c tbl n fk h = .ret h none := by
  obtain ⟨link, hl, hf⟩ := hs
  unfold linkFk
  rw [hl]
  simp only
  have hn : ¬ (c = true ∧ (mapGet (h link).Fields fk.ReferenceField).isNone = true) := by
    rintro ⟨hc, hnone⟩
    have := hf hc
    cases hm : mapGet (h link).Fields fk.ReferenceField with
    | none => rw [hm] at this; cases this
    | some v => rw [hm] at hnone; cases hnone
  rw [if_neg hn]

theorem linkFks_settled (db : TableCollection) (c : Bool) (tbl : Ptr) (h : Heap)
    (fks : List (String × Fk)) (hs : ∀ e ∈ fks, fkSettled c h tbl e.2) :
    linkFks db c tbl fks h = .ret h none := by
  induction fks with
  | nil => rfl
  | cons x rest ih =>
    obtain ⟨n, fk⟩ := x
    have h1 := linkFk_settled db c tbl n fk h (hs (n, fk) (List.mem_cons_self _ _))
    simp only [linkFks, h1]
    exact ih (fun e he => hs e (List.mem_cons_of_mem _ he))

theorem linkTables_settled (db : TableCollection) (c : Bool) (h : Heap)
    (ts : List (String × Ptr)) (hs : ∀ x ∈ ts, ∀ e ∈ (h x.2).Fks, fkSettled c h x.2 e.2) :
    linkTables db c ts h = .ret h none := by
  induction ts with
  | nil => rfl
  | cons x rest ih =>
    obtain ⟨k, tbl⟩ := x
    have h1 := linkFks_settled db c tbl h (h tbl).Fks (hs (k, tbl) (List.mem_cons_self _ _))
    simp only [linkTables, h1]
    exact ih (fun y hy => hs y (List.mem_cons_of_mem _ hy))

/-- One key linked or passed over without an error, in a graph whose tables
are stored under their own names: the depends-on entries are kept, the key is
settled, and every key of the owner is one it had or has the target of the
key just visited. -/
theorem linkFk_ok_settles (db : TableCollection) (c : Bool) (tbl : Ptr) (n : String) (fk : Fk)
    (h h1 : Heap) (hown : ∀ k q, mapGet db.Tables k = some q → (h q).Name = k)
    (hr : linkFk db c tbl n fk h = .ret h1 none) :
    keepsDependsOn h h1 ∧ fkSettled c h1 tbl fk ∧
    (∀ e ∈ (h1 tbl).Fks, e ∈ (h tbl).Fks ∨
      (e.2.ReferenceTable = fk.ReferenceTable ∧ e.2.ReferenceField = fk.ReferenceField)) := by
  unfold linkFk at hr
  cases hl : mapGet (h tbl).LinkedTables fk.ReferenceTable with
  | some link =>
    rw [hl] at hr
    simp only at hr
    split at hr
    · cases hr
    · rename_i hn
      cases hr
      refine ⟨keepsDependsOn_refl h, ⟨link, hl, fun hc => ?_⟩, fun e he => Or.inl he⟩
      cases hm : mapGet (h link).Fields fk.ReferenceField with
      | none => exact absurd ⟨hc, by rw [hm]; rfl⟩ hn
      | some v => rfl
  | none =>
    rw [hl] at hr
    simp only at hr
    cases hd : mapGet db.Tables fk.ReferenceTable with
    | none => rw [hd] at hr; cases hr
    | some val =>
      rw [hd] at hr
      simp only at hr
      split at hr
      · cases hr
      · rename_i hn
        simp only [Result.ret.injEq, and_true] at hr
        subst hr
        have hvn : (h val).Name = fk.ReferenceTable := hown _ _ hd
        refine ⟨?_, ?_, ?_⟩
        · intro q
          refine ⟨linkTo_Name _ _ _ _ _ _, linkTo_Fields _ _ _ _ _ _, fun k v hk => ?_⟩
          rw [linkTo_LinkedTables]
          by_cases hq : q = tbl
          · subst hq
            rw [if_pos rfl, mapGet_mapSet]
            have hkk : (h val).Name ≠ k := by
              intro heq
              rw [hvn] at heq
              rw [← heq, hl] at hk
              cases hk
            rw [if_neg hkk]
            exact hk
          · rw [if_neg hq]
            exact hk
        · refine ⟨val, ?_, fun hc => ?_⟩
          · rw [linkTo_LinkedTables, if_pos rfl, mapGet_mapSet, if_pos hvn]
          · rw [linkTo_Fields]
            cases hm : mapGet (h val).Fields fk.ReferenceField with
            | none => exact absurd ⟨hc, by rw [hm]; rfl⟩ hn
            | some v => rfl
        · intro e he
          rw [linkTo_Fks, if_pos rfl] at he
          rcases mem_mapSet _ _ _ _ he with h2 | h2
          · exact Or.inl h2
          · right
            rw [h2]
            exact ⟨rfl, rfl⟩

/-- The inner loop of `LinkAllTables` over the keys `fks` of `tbl`, ending
without an error, when every key of `tbl` is settled or still to visit: at
the end every key of `tbl` is settled. -/
theorem linkFks_ok_settles (db : TableCollection) (c : Bool) (tbl : Ptr)
    (fks : List (String × Fk)) :
    ∀ (h h1 : Heap), (∀ k q, mapGet db.Tables k = some q → (h q).Name = k) →
      (∀ e ∈ (h tbl).Fks, fkSettled c h tbl e.2 ∨ e ∈ fks) →
      linkFks db c tbl fks h = .ret h1 none →
      keepsDependsOn h h1 ∧ (∀ e ∈ (h1 tbl).Fks, fkSettled c h1 tbl e.2) := by
  induction fks with
  | nil =>
    intro h h1 _ hall hr
    simp only [linkFks] at hr
    cases hr
    refine ⟨keepsDependsOn_refl h, fun e he => ?_⟩
    rcases hall e he with h2 | h2
    · exact h2
    · simp at h2
  | cons x rest ih =>
    obtain ⟨n, fk⟩ := x
    intro h h1 hown hall hr
    cases hstep : linkFk db c tbl n fk h with
    | panic msg => simp only [linkFks, hstep] at hr; cases hr
    | ret h2 e2 =>
      cases e2 with
      | some err => simp only [linkFks, hstep] at hr; cases hr
      | none =>
        simp only [linkFks, hstep] at hr
        obtain ⟨hk, hsf, hent⟩ := linkFk_ok_settles db c tbl n fk h h2 hown hstep
        have hown2 : ∀ k q, mapGet db.Tables k = some q → (h2 q).Name = k := by
          intro k q hkq
          rw [(hk q).1]
          exact hown k q hkq
        have hall2 : ∀ e ∈ (h2 tbl).Fks, fkSettled c h2 tbl e.2 ∨ e ∈ rest := by
          intro e he
          rcases hent e he with h3 | h3
          · rcases hall e h3 with h4 | h4
            · exact Or.inl (fkSettled_of_keeps c h h2 tbl e.2 hk h4)
            · rcases List.mem_cons.1 h4 with h5 | h5
              · left
                rw [h5]
                exact hsf
              · exact Or.inr h5
          · exact Or.inl (fkSettled_congr c h2 tbl fk e.2 h3.1 h3.2 hsf)
        obtain ⟨hk2, hfin⟩ := ih h2 h1 hown2 hall2 hr
        exact ⟨keepsDependsOn_trans h h2 h1 hk hk2, hfin⟩

/-- The outer loop of `LinkAllTables`, ending without an error: the keys of the
tables it visited are all settled, and so are those of the tables `P` that
were settled before. -/
theorem linkTables_ok_settles (db : TableCollection) (c : Bool) (ts : List (String × Ptr)) :
    ∀ (h h1 : Heap) (P : Ptr → Prop),
      (∀ k q, mapGet db.Tables k = some q → (h q).Name = k) →
      (∀ q, P q → ∀ e ∈ (h q).Fks, fkSettled c h q e.2) →
      linkTables db c ts h = .ret h1 none →
      ∀ q, (P q ∨ ∃ k, (k, q) ∈ ts) → ∀ e ∈ (h1 q).Fks, fkSettled c h1 q e.2 := by
  induction ts with
  | nil =>
    intro h h1 P _ hP hr q hq
    simp only [linkTables] at hr
    cases hr
    rcases hq with hq | ⟨k, hk⟩
    · exact hP q hq
    · simp at hk
  | cons x rest ih =>
    obtain ⟨k0, tbl⟩ := x
    intro h h1 P hown hP hr q hq
    cases hstep : linkFks db c tbl (h tbl).Fks h with
    | panic msg => simp only [linkTables, hstep] at hr; cases hr
    | ret h2 e2 =>
      cases e2 with
      | some err => simp only [linkTables, hstep] at hr; cases hr
      | none =>
        simp only [linkTables, hstep] at hr
        obtain ⟨hk, hset⟩ := linkFks_ok_settles db c tbl (h tbl).Fks h h2 hown
          (fun e he => Or.inr he) hstep
        have hframe := linkFks_frame db c tbl (h tbl).Fks h h2 none hstep
        have hown2 : ∀ k q, mapGet db.Tables k = some q → (h2 q).Name = k := by
          intro k q hkq
          rw [hframe.1 q]
          exact hown k q hkq
        have hP2 : ∀ q, (P q ∨ q = tbl) → ∀ e ∈ (h2 q).Fks, fkSettled c h2 q e.2 := by
          intro q1 hq1 e he
          by_cases hqt : q1 = tbl
          · subst hqt
            exact hset e he
          · rcases hq1 with hq1 | hq1
            · rw [(hframe.2 q1 hqt).1] at he
              exact fkSettled_of_keeps c h h2 q1 e.2 hk (hP q1 hq1 e he)
            · exact absurd hq1 hqt
        apply ih h2 h1 (fun q => P q ∨ q = tbl) hown2 hP2 hr q
        rcases hq with hq | ⟨k, hkq⟩
        · exact Or.inl (Or.inl hq)
        · rcases List.mem_cons.1 hkq with h3 | h3
          · cases h3
            exact Or.inl (Or.inr rfl)
          · exact Or.inr ⟨k, h3⟩

/-- C20: in a graph whose tables are stored under their own names, when
`LinkAllTables(c)` returns no error, a second `LinkAllTables(c)` returns no
error and the heap it was given: every depends-on map, dependants map and
reference is as the first call left it. -/
theorem C20_LinkAllTables_twice (db : TableCollection) (c : Bool) (h h1 : Heap)
    (hown : ∀ k q, mapGet db.Tables k = some q → (h q).Name = k)
    (hfirst : LinkAllTables db c h = .ret h1 none) :
    LinkAllTables db c h1 = .ret h1 none := by
  unfold LinkAllTables at hfirst ⊢
  apply linkTables_settled
  intro x hx e he
  exact linkTables_ok_settles db c db.Tables h h1 (fun _ => False) hown
    (fun _ hf => absurd hf id) hfirst x.2 (Or.inr ⟨x.1, hx⟩) e he

/-- C20, witness: "a" with its two foreign keys to "b"; the first call links
"a" to "b", the second changes nothing. -/
theorem C20_LinkAllTables_twice_witness :
    LinkAllTables abDb true twoFkHeap
      = .ret (linkTo 0 "fk_1" (stubFk "fk_1" "b" "id") 1 twoFkHeap) none ∧
    LinkAllTables abDb true (linkTo 0 "fk_1" (stubFk "fk_1" "b" "id") 1 twoFkHeap)
      = .ret (linkTo 0 "fk_1" (stubFk "fk_1" "b" "id") 1 twoFkHeap) none :=
  ⟨rfl, C20_LinkAllTables_twice abDb true twoFkHeap _
    (by
      intro k q hk
      simp only [abDb, emptyDb, mapGet] at hk
      split at hk
      · cases hk
        subst_vars
        rfl
      · split at hk
        · cases hk
          subst_vars
          rfl
        · cases hk)
    rfl⟩
/-! ## What the matcher finds is a match -/

theorem matchChar_some (ok : Char → Bool) (s : List Char) (caps : Caps) (k : Cont)
    (r : List Char × Caps) (hr : matchChar ok s caps k = some r) :
    ∃ x xs, s = x :: xs ∧ ok x = true ∧ k xs caps = some r := by
  unfold matchChar at hr
  cases s with
  | nil => cases hr
  | cons x xs =>
    simp only at hr
    by_cases hx : ok x = true
    · rw [if_pos hx] at hr
      exact ⟨x, xs, rfl, hx, hr⟩
    · rw [if_neg hx] at hr
      cases hr

/-- The repetition loop, when its body finds matches only: what it passes on
is reached by a chain of matches of the body. -/
theorem starLoop_sound (a : Regex) (greedy : Bool)
    (T : List Char → Caps → List Char → Caps → Prop)
    (hnil : ∀ s c, T s c s c)
    (hcons : ∀ s s1 s2 c c1 c2, Matches a s c s1 c1 → T s1 c1 s2 c2 → T s c s2 c2)
    (ha : ∀ s caps (k : Cont) r, a.run s caps k = some r →
      ∃ s1 c1, Matches a s caps s1 c1 ∧ k s1 c1 = some r)
    (fuel : Nat) :
    ∀ s caps (k : Cont) r, starLoop a.run greedy fuel s caps k = some r →
      ∃ s1 c1, T s caps s1 c1 ∧ k s1 c1 = some r := by
  induction fuel with
  | zero =>
    intro s caps k r hr
    simp only [starLoop] at hr
    exact ⟨s, caps, hnil s caps, hr⟩
  | succ n ih =>
    intro s caps k r hr
    have hmore : ∀ r1, a.run s caps (fun s1 c1 =>
        if s1.length < s.length then starLoop a.run greedy n s1 c1 k else none) = some r1 →
        ∃ s2 c2, T s caps s2 c2 ∧ k s2 c2 = some r1 := by
      intro r1 h1
      obtain ⟨s1, c1, hm, hk⟩ := ha _ _ _ _ h1
      split at hk
      · obtain ⟨s2, c2, ht, hk2⟩ := ih _ _ _ _ hk
        exact ⟨s2, c2, hcons _ _ _ _ _ _ hm ht, hk2⟩
      · cases hk
    simp only [starLoop] at hr
    cases greedy with
    | true =>
      simp only [if_true] at hr
      split at hr
      · rename_i r1 heq
        cases hr
        exact hmore _ heq
      · exact ⟨s, caps, hnil s caps, hr⟩
    | false =>
      simp only [Bool.false_eq_true, if_false] at hr
      split at hr
      · rename_i r1 heq
        cases hr
        exact ⟨s, caps, hnil s caps, heq⟩
      · exact hmore _ hr

/-- Whatever the matcher passes on to its continuation is reached by a
match. -/
theorem run_sound (re : Regex) :
    ∀ s caps (k : Cont) r, re.run s caps k = some r →
      ∃ s1 c1, Matches re s caps s1 c1 ∧ k s1 c1 = some r := by
  induction re with
  | empty =>
    intro s caps k r hr
    exact ⟨s, caps, Matches.empty s caps, hr⟩
  | lit c =>
    intro s caps k r hr
    obtain ⟨x, xs, hs, hx, hk⟩ := matchChar_some _ _ _ _ _ hr
    subst hs
    have hxc : x = c := by simpa using hx
    subst hxc
    exact ⟨xs, caps, Matches.lit x xs caps, hk⟩
  | notLit c =>
    intro s caps k r hr
    obtain ⟨x, xs, hs, hx, hk⟩ := matchChar_some _ _ _ _ _ hr
    subst hs
    have hxc : x ≠ c := by simpa using hx
    exact ⟨xs, caps, Matches.notLit c x xs caps hxc, hk⟩
  | space =>
    intro s caps k r hr
    obtain ⟨x, xs, hs, hx, hk⟩ := matchChar_some _ _ _ _ _ hr
    subst hs
    exact ⟨xs, caps, Matches.space x xs caps hx, hk⟩
  | notSpace =>
    intro s caps k r hr
    obtain ⟨x, xs, hs, hx, hk⟩ := matchChar_some _ _ _ _ _ hr
    subst hs
    have hxc : isSpace x = false := by simpa using hx
    exact ⟨xs, caps, Matches.notSpace x xs caps hxc, hk⟩
  | dot =>
    intro s caps k r hr
    obtain ⟨x, xs, hs, hx, hk⟩ := matchChar_some _ _ _ _ _ hr
    subst hs
    have hxc : x ≠ '\n' := by simpa using hx
    exact ⟨xs, caps, Matches.dot x xs caps hxc, hk⟩
  | seq a b iha ihb =>
    intro s caps k r hr
    simp only [Regex.run] at hr
    obtain ⟨s1, c1, hm1, hk1⟩ := iha _ _ _ _ hr
    obtain ⟨s2, c2, hm2, hk2⟩ := ihb _ _ _ _ hk1
    exact ⟨s2, c2, Matches.seq a b s s1 s2 caps c1 c2 hm1 hm2, hk2⟩
  | alt a b iha ihb =>
    intro s caps k r hr
    simp only [Regex.run] at hr
    split at hr
    · rename_i r1 heq
      cases hr
      obtain ⟨s1, c1, hm1, hk1⟩ := iha _ _ _ _ heq
      exact ⟨s1, c1, Matches.altLeft a b s s1 caps c1 hm1, hk1⟩
    · obtain ⟨s1, c1, hm1, hk1⟩ := ihb _ _ _ _ hr
      exact ⟨s1, c1, Matches.altRight a b s s1 caps c1 hm1, hk1⟩
  | star a iha =>
    intro s caps k r hr
    simp only [Regex.run] at hr
    exact starLoop_sound a true (Matches (.star a)) (Matches.starNil a)
      (fun s s1 s2 c c1 c2 h1 h2 => Matches.starCons a s s1 s2 c c1 c2 h1 h2) iha _ _ _ _ _ hr
  | lazyStar a iha =>
    intro s caps k r hr
    simp only [Regex.run] at hr
    exact starLoop_sound a false (Matches (.lazyStar a)) (Matches.lazyNil a)
      (fun s s1 s2 c c1 c2 h1 h2 => Matches.lazyCons a s s1 s2 c c1 c2 h1 h2) iha _ _ _ _ _ hr
  | opt a iha =>
    intro s caps k r hr
    simp only [Regex.run] at hr
    split at hr
    · rename_i r1 heq
      cases hr
      obtain ⟨s1, c1, hm1, hk1⟩ := iha _ _ _ _ heq
      exact ⟨s1, c1, Matches.optSome a s s1 caps c1 hm1, hk1⟩
    · exact ⟨s, caps, Matches.optNone a s caps, hr⟩
  | group i a iha =>
    intro s caps k r hr
    simp only [Regex.run] at hr
    obtain ⟨s1, c1, hm1, hk1⟩ := iha _ _ _ _ hr
    exact ⟨s1, _, Matches.group i a s s1 caps c1 hm1, hk1⟩
/-! ## Matches, their input and their captures -/

/-- A match reads a prefix of its input. -/
theorem Matches_suffix (re : Regex) (s : List Char) (c : Caps) (s1 : List Char) (c1 : Caps)
    (hm : Matches re s c s1 c1) : ∃ pre, s = pre ++ s1 := by
  induction hm with
  | empty s caps => exact ⟨[], rfl⟩
  | lit c s caps => exact ⟨[c], rfl⟩
  | notLit c x s caps hx => exact ⟨[x], rfl⟩
  | space x s caps hx => exact ⟨[x], rfl⟩
  | notSpace x s caps hx => exact ⟨[x], rfl⟩
  | dot x s caps hx => exact ⟨[x], rfl⟩
  | seq a b s s1 s2 c c1 c2 _ _ iha ihb =>
    obtain ⟨p1, h1⟩ := iha
    obtain ⟨p2, h2⟩ := ihb
    exact ⟨p1 ++ p2, by rw [h1, h2, List.append_assoc]⟩
  | altLeft a b s s1 c c1 _ iha => exact iha
  | altRight a b s s1 c c1 _ ihb => exact ihb
  | starNil a s c => exact ⟨[], rfl⟩
  | starCons a s s1 s2 c c1 c2 _ _ iha ihs =>
    obtain ⟨p1, h1⟩ := iha
    obtain ⟨p2, h2⟩ := ihs
    exact ⟨p1 ++ p2, by rw [h1, h2, List.append_assoc]⟩
  | lazyNil a s c => exact ⟨[], rfl⟩
  | lazyCons a s s1 s2 c c1 c2 _ _ iha ihs =>
    obtain ⟨p1, h1⟩ := iha
    obtain ⟨p2, h2⟩ := ihs
    exact ⟨p1 ++ p2, by rw [h1, h2, List.append_assoc]⟩
  | optSome a s s1 c c1 _ iha => exact iha
  | optNone a s c => exact ⟨[], rfl⟩
  | group i a s s1 c c1 _ iha => exact iha

theorem capture_cons_ne (i j : Nat) (t : List Char) (c : Caps) (hij : j ≠ i) :
    capture ((j, t) :: c) i = capture c i := by
  unfold capture
  simp [List.find?, hij]

/-- A match leaves the capture of a group that does not occur in the
expression as it was. -/
theorem Matches_capture (i : Nat) (re : Regex) (s : List Char) (c : Caps) (s1 : List Char)
    (c1 : Caps) (hm : Matches re s c s1 c1) (hg : re.hasGroup i = false) :
    capture c1 i = capture c i := by
  induction hm with
  | empty s caps => rfl
  | lit c s caps => rfl
  | notLit c x s caps hx => rfl
  | space x s caps hx => rfl
  | notSpace x s caps hx => rfl
  | dot x s caps hx => rfl
  | seq a b s s1 s2 c c1 c2 _ _ iha ihb =>
    simp only [Regex.hasGroup, Bool.or_eq_false_iff] at hg
    rw [ihb hg.2, iha hg.1]
  | altLeft a b s s1 c c1 _ iha =>
    simp only [Regex.hasGroup, Bool.or_eq_false_iff] at hg
    exact iha hg.1
  | altRight a b s s1 c c1 _ ihb =>
    simp only [Regex.hasGroup, Bool.or_eq_false_iff] at hg
    exact ihb hg.2
  | starNil a s c => rfl
  | starCons a s s1 s2 c c1 c2 _ _ iha ihs =>
    have hga : a.hasGroup i = false := by simpa only [Regex.hasGroup] using hg
    rw [ihs hg, iha hga]
  | lazyNil a s c => rfl
  | lazyCons a s s1 s2 c c1 c2 _ _ iha ihs =>
    have hga : a.hasGroup i = false := by simpa only [Regex.hasGroup] using hg
    rw [ihs hg, iha hga]
  | optSome a s s1 c c1 _ iha =>
    have hga : a.hasGroup i = false := by simpa only [Regex.hasGroup] using hg
    exact iha hga
  | optNone a s c => rfl
  | group j a s s1 c c1 _ iha =>
    simp only [Regex.hasGroup, Bool.or_eq_false_iff, decide_eq_false_iff_not] at hg
    rw [capture_cons_ne i j _ _ hg.1]
    exact iha hg.2

/-- A match of a text reads that text and captures nothing. -/
theorem Matches_text (cs : List Char) :
    ∀ (s : List Char) (c : Caps) (s1 : List Char) (c1 : Caps),
      Matches (Regex.text cs) s c s1 c1 → s = cs ++ s1 ∧ c1 = c := by
  induction cs with
  | nil =>
    intro s c s1 c1 hm
    cases hm
    exact ⟨rfl, rfl⟩
  | cons x xs ih =>
    intro s c s1 c1 hm
    cases hm with
    | seq _ _ _ s2 _ _ c2 _ ha hb =>
      cases ha
      obtain ⟨h1, h2⟩ := ih _ _ _ _ hb
      exact ⟨by rw [h1]; rfl, h2⟩

/-! ## Occurrences of a word -/

theorem startsWith_append (sub post : List Char) : startsWith sub (sub ++ post) = true := by
  induction sub with
  | nil => rfl
  | cons x xs ih => simp [startsWith, ih]

theorem containsChars_of_startsWith (sub s : List Char) (hs : startsWith sub s = true) :
    containsChars sub s = true := by
  cases s with
  | nil => exact hs
  | cons c cs => simp [containsChars, hs]

theorem containsChars_append_left (sub pre s : List Char) (hs : containsChars sub s = true) :
    containsChars sub (pre ++ s) = true := by
  induction pre with
  | nil => exact hs
  | cons c cs ih => simp [containsChars, ih]

theorem containsChars_mid (sub pre post : List Char) :
    containsChars sub (pre ++ (sub ++ post)) = true :=
  containsChars_append_left sub pre _
    (containsChars_of_startsWith sub _ (startsWith_append sub post))

theorem startsWith_map (f : Char → Char) (sub : List Char) :
    ∀ s, startsWith sub s = true → startsWith (sub.map f) (s.map f) = true := by
  induction sub with
  | nil => intro s _; rfl
  | cons x xs ih =>
    intro s hs
    cases s with
    | nil => cases hs
    | cons c cs =>
      simp only [startsWith, Bool.and_eq_true, decide_eq_true_eq] at hs
      simp only [List.map_cons, startsWith, Bool.and_eq_true, decide_eq_true_eq]
      exact ⟨by rw [hs.1], ih cs hs.2⟩

theorem containsChars_map (f : Char → Char) (sub : List Char) :
    ∀ s, containsChars sub s = true → containsChars (sub.map f) (s.map f) = true := by
  intro s
  induction s with
  | nil =>
    intro hs
    exact startsWith_map f sub [] hs
  | cons c cs ih =>
    intro hs
    simp only [containsChars, Bool.or_eq_true] at hs
    simp only [List.map_cons, containsChars, Bool.or_eq_true]
    rcases hs with h1 | h1
    · exact Or.inl (startsWith_map f sub (c :: cs) h1)
    · exact Or.inr (ih h1)

/-! ## The field pattern and the word DEFAULT -/

theorem carriesDefault_seq (a b : Regex) (ha : a.hasGroup 6 = false) (hb : carriesDefault b) :
    carriesDefault (.seq a b) := by
  intro s c s1 c1 hc hm h6
  cases hm with
  | seq _ _ _ s2 _ _ c2 _ hma hmb =>
    obtain ⟨pre, hpre⟩ := Matches_suffix a s c s2 c2 hma
    have hc2 : capture c2 6 = "" := by rw [Matches_capture 6 a s c s2 c2 hma ha]; exact hc
    rw [hpre]
    exact containsChars_append_left _ pre s2 (hb s2 c2 s1 c1 hc2 hmb h6)

theorem carriesDefault_last (x y : Regex) (hy : y.hasGroup 6 = false) :
    carriesDefault (.group 5 (.alt (.seq (Regex.text "DEFAULT".toList) x) y)) := by
  intro s c s1 c1 hc hm h6
  cases hm with
  | group _ _ _ _ _ c2 hma =>
    rw [capture_cons_ne 6 5 _ _ (by decide)] at h6
    cases hma with
    | altLeft _ _ _ _ _ _ hl =>
      cases hl with
      | seq _ _ _ s3 _ _ c3 _ ht hx =>
        obtain ⟨hs, _⟩ := Matches_text _ _ _ _ _ ht
        rw [hs]
        exact containsChars_of_startsWith _ _ (startsWith_append _ _)
    | altRight _ _ _ _ _ _ hr =>
      rw [Matches_capture 6 y _ _ _ _ hr hy] at h6
      exact absurd hc h6

/-- The pattern `fieldDef` captures a group 6 only after the word DEFAULT. -/
theorem fieldDef_carriesDefault : carriesDefault p.fieldDef.body := by
  unfold p
  simp only
  refine carriesDefault_seq _ _ ?_ ?_
  · rfl
  refine carriesDefault_seq _ _ ?_ ?_
  · rfl
  refine carriesDefault_seq _ _ ?_ ?_
  · rfl
  refine carriesDefault_seq _ _ ?_ ?_
  · rfl
  refine carriesDefault_seq _ _ ?_ ?_
  · rfl
  refine carriesDefault_seq _ _ ?_ ?_
  · rfl
  refine carriesDefault_seq _ _ ?_ ?_
  · rfl
  refine carriesDefault_seq _ _ ?_ ?_
  · rfl
  exact carriesDefault_last _ _ rfl
/-! ## The field pattern in `NewFieldFromString` -/

/-- An anchored expression matches nowhere but at the start of the text. -/
theorem search_anchored (re : Regexp) (ha : re.anchored = true) :
    ∀ fuel s, re.search fuel false s = none := by
  intro fuel
  induction fuel with
  | zero => intro s; rfl
  | succ n ih =>
    intro s
    cases s with
    | nil => simp [Regexp.search, ha]
    | cons x xs => simp [Regexp.search, ha, ih]

/-- The groups of a match of an anchored expression are those of the match at
the head of the text. -/
theorem FindStringSubmatch_anchored (re : Regexp) (ha : re.anchored = true) (s : String) :
    re.FindStringSubmatch s =
      match re.matchHere s.toList with
      | some r => r.1
      | none => [] := by
  unfold Regexp.FindStringSubmatch
  simp only [Regexp.search, ha, Bool.not_true, Bool.and_false, Bool.false_eq_true, if_false]
  cases hm : re.matchHere s.toList with
  | some r => rfl
  | none =>
    cases hs : s.toList with
    | nil => rfl
    | cons x xs => simp [search_anchored re ha]

/-- A match of `fieldDef` with a sixth group has the word DEFAULT in the
line. -/
theorem fieldDef_group6 (fStmt : String)
    (h6 : (p.fieldDef.FindStringSubmatch fStmt).getD 6 "" ≠ "") :
    Contains fStmt "DEFAULT" = true := by
  rw [FindStringSubmatch_anchored p.fieldDef rfl] at h6
  unfold Regexp.matchHere at h6
  cases hr : p.fieldDef.body.run fStmt.toList [] (fun rest caps => some (rest, caps)) with
  | none =>
    rw [hr] at h6
    exact absurd rfl h6
  | some r =>
    obtain ⟨rest, caps⟩ := r
    rw [hr] at h6
    obtain ⟨s1, c1, hm, hk⟩ := run_sound p.fieldDef.body _ _ _ _ hr
    simp only [Option.some.injEq, Prod.mk.injEq] at hk
    obtain ⟨h1, h2⟩ := hk
    subst h1
    subst h2
    have hc : (match (some (String.mk (fStmt.toList.take (fStmt.toList.length - s1.length))
        :: (List.range p.fieldDef.groups).map (fun i => capture c1 (i + 1)), s1) :
          Option (List String × List Char)) with
        | some r => r.1
        | none => []).getD 6 "" = capture c1 6 := rfl
    rw [hc] at h6
    exact fieldDef_carriesDefault fStmt.toList [] s1 c1 rfl hm h6
/-- The attribute text with NOT NULL in it gives a field that is not
nullable. -/
theorem notNull_of_attributes (attrs : String) (h : Contains attrs "NOT NULL" = true) :
    Contains (ToLower attrs) "not null" = true := by
  unfold Contains at h
  unfold Contains ToLower
  exact containsChars_map lowerChar _ _ h

/-- The attribute text has the text of the fourth group in it. -/
theorem attributes_group4 (a b c d e f g : String) :
    Contains (" ".intercalate ([a, b, c, d, e, f, g].drop 3)) e = true := by
  unfold Contains
  have hj : (" ".intercalate ([a, b, c, d, e, f, g].drop 3)).toList
      = (d.toList ++ [' ']) ++ (e.toList ++ (' ' :: (f.toList ++ (' ' :: g.toList)))) := by
    simp [String.intercalate, String.intercalate.go, String.toList]
  rw [hj]
  exact containsChars_mid _ _ _

/-- C11, counterexample: on the line with NOT NULL after AUTO_INCREMENT
and no DEFAULT the call succeeds, and the field it builds is nullable: the
match of the pattern ends at AUTO_INCREMENT, and the NOT NULL after it is in
no group. -/
theorem C11_not_null_after_auto_increment_is_nullable :
    Contains "`id` int AUTO_INCREMENT NOT NULL,"
        "NOT NULL" = true
    ∧ Contains "`id` int AUTO_INCREMENT NOT NULL,"
        "DEFAULT" = false
    ∧ (NewFieldFromString
        "`id` int AUTO_INCREMENT NOT NULL,").error
        = some none
    ∧ ((NewFieldFromString
        "`id` int AUTO_INCREMENT NOT NULL,").value.map
          (fun o => o.map (fun f => (f.Nullable, f.DefaultValue, f.Attributes))))
        = some (some (true, "", "  AUTO_INCREMENT ")) :=
  ⟨by decide, by decide, by decide, by decide⟩

/-! ## The shape of a match of the field pattern -/

/-- Two texts that agree, the first starting with characters of a class up to
a character outside it: the run of the class in the second is at least as
long. -/
theorem append_split_class (Q : Char → Prop) :
    ∀ (a b X Y : List Char) (y : Char), (∀ x ∈ a, Q x) → ¬ Q y →
      a ++ X = b ++ y :: Y → ∃ b1, b = a ++ b1 ∧ X = b1 ++ y :: Y := by
  intro a
  induction a with
  | nil =>
    intro b X Y y _ _ h
    exact ⟨b, rfl, h⟩
  | cons x a ih =>
    intro b X Y y ha hy h
    cases b with
    | nil =>
      simp only [List.cons_append, List.nil_append, List.cons.injEq] at h
      exact absurd (h.1 ▸ ha x (List.mem_cons_self _ _)) hy
    | cons z b =>
      simp only [List.cons_append, List.cons.injEq] at h
      obtain ⟨b1, hb, hX⟩ := ih b X Y y (fun w hw => ha w (List.mem_cons_of_mem _ hw)) hy h.2
      exact ⟨b1, by rw [h.1, hb]; rfl, hX⟩

/-- The same from the end of the texts. -/
theorem append_split_class_end (Q : Char → Prop) (a b X Y : List Char) (y : Char)
    (ha : ∀ x ∈ a, Q x) (hy : ¬ Q y) (h : X ++ a = Y ++ y :: b) :
    ∃ b1, b = b1 ++ a ∧ X = Y ++ y :: b1 := by
  have hrev : a.reverse ++ X.reverse = b.reverse ++ y :: Y.reverse := by
    have := congrArg List.reverse h
    simpa using this
  obtain ⟨b1, hb, hX⟩ := append_split_class Q a.reverse b.reverse X.reverse Y.reverse y
    (fun x hx => ha x (List.mem_reverse.1 hx)) hy hrev
  refine ⟨b1.reverse, ?_, ?_⟩
  · have := congrArg List.reverse hb
    simpa using this
  · have := congrArg List.reverse hX
    simpa using this

/-- Two texts that agree, each a run of a class up to a character outside it:
the runs are the same. -/
theorem append_first_outside (Q : Char → Prop) (a b X Y : List Char) (x y : Char)
    (ha : ∀ z ∈ a, Q z) (hx : ¬ Q x) (hb : ∀ z ∈ b, Q z) (hy : ¬ Q y)
    (h : a ++ x :: X = b ++ y :: Y) : a = b ∧ x :: X = y :: Y := by
  obtain ⟨b1, hb1, hX⟩ := append_split_class Q a b (x :: X) Y y ha hy h
  cases b1 with
  | nil => exact ⟨by rw [hb1, List.append_nil], hX⟩
  | cons z b1 =>
    simp only [List.cons_append, List.cons.injEq] at hX
    have hz : Q z := hb z (by rw [hb1]; simp)
    exact absurd (hX.1 ▸ hz) hx

theorem Matches_seq_inv (a b : Regex) (s : List Char) (c : Caps) (s2 : List Char) (c2 : Caps)
    (h : Matches (.seq a b) s c s2 c2) :
    ∃ s1 c1, Matches a s c s1 c1 ∧ Matches b s1 c1 s2 c2 := by
  cases h with
  | seq _ _ _ s1 _ _ c1 _ ha hb => exact ⟨s1, c1, ha, hb⟩

theorem Matches_group_inv (i : Nat) (a : Regex) (s : List Char) (c : Caps) (s1 : List Char)
    (c1 : Caps) (h : Matches (.group i a) s c s1 c1) :
    ∃ c0, Matches a s c s1 c0 ∧ c1 = (i, s.take (s.length - s1.length)) :: c0 := by
  cases h with
  | group _ _ _ _ _ c0 ha => exact ⟨c0, ha, rfl⟩

theorem Matches_lit_inv (x : Char) (s : List Char) (c : Caps) (s1 : List Char) (c1 : Caps)
    (h : Matches (.lit x) s c s1 c1) : s = x :: s1 ∧ c1 = c := by
  cases h
  exact ⟨rfl, rfl⟩

/-- A repetition of a class of characters reads a run of the class and
captures nothing. -/
theorem Matches_star_class (a : Regex) (P : Char → Prop)
    (ha : ∀ s c s1 c1, Matches a s c s1 c1 → ∃ x, s = x :: s1 ∧ P x ∧ c1 = c)
    (s : List Char) (c : Caps) (s1 : List Char) (c1 : Caps)
    (h : Matches (.star a) s c s1 c1) :
    ∃ w, s = w ++ s1 ∧ (∀ x ∈ w, P x) ∧ c1 = c := by
  generalize hre : Regex.star a = re at h
  induction h with
  | starNil a1 s c => exact ⟨[], rfl, by simp, rfl⟩
  | starCons a1 s s1 s2 c c1 c2 h1 h2 _ ih2 =>
    cases hre
    obtain ⟨x, hx, hP, hc⟩ := ha _ _ _ _ h1
    obtain ⟨w, hw, hPw, hcw⟩ := ih2 rfl
    refine ⟨x :: w, by rw [hx, hw]; rfl, ?_, by rw [hcw, hc]⟩
    intro z hz
    rcases List.mem_cons.1 hz with hz | hz
    · rw [hz]; exact hP
    · exact hPw z hz
  | _ => cases hre

/-- The same for the lazy repetition. -/
theorem Matches_lazyStar_class (a : Regex) (P : Char → Prop)
    (ha : ∀ s c s1 c1, Matches a s c s1 c1 → ∃ x, s = x :: s1 ∧ P x ∧ c1 = c)
    (s : List Char) (c : Caps) (s1 : List Char) (c1 : Caps)
    (h : Matches (.lazyStar a) s c s1 c1) :
    ∃ w, s = w ++ s1 ∧ (∀ x ∈ w, P x) ∧ c1 = c := by
  generalize hre : Regex.lazyStar a = re at h
  induction h with
  | lazyNil a1 s c => exact ⟨[], rfl, by simp, rfl⟩
  | lazyCons a1 s s1 s2 c c1 c2 h1 h2 _ ih2 =>
    cases hre
    obtain ⟨x, hx, hP, hc⟩ := ha _ _ _ _ h1
    obtain ⟨w, hw, hPw, hcw⟩ := ih2 rfl
    refine ⟨x :: w, by rw [hx, hw]; rfl, ?_, by rw [hcw, hc]⟩
    intro z hz
    rcases List.mem_cons.1 hz with hz | hz
    · rw [hz]; exact hP
    · exact hPw z hz
  | _ => cases hre

/-- One or more of a class of characters: a non-empty run of the class. -/
theorem Matches_plus_class (a : Regex) (P : Char → Prop)
    (ha : ∀ s c s1 c1, Matches a s c s1 c1 → ∃ x, s = x :: s1 ∧ P x ∧ c1 = c)
    (s : List Char) (c : Caps) (s1 : List Char) (c1 : Caps)
    (h : Matches (Regex.plus a) s c s1 c1) :
    ∃ x w, s = (x :: w) ++ s1 ∧ P x ∧ (∀ z ∈ w, P z) ∧ c1 = c := by
  unfold Regex.plus at h
  obtain ⟨s0, c0, h1, h2⟩ := Matches_seq_inv _ _ _ _ _ _ h
  obtain ⟨x, hx, hP, hc⟩ := ha _ _ _ _ h1
  obtain ⟨w, hw, hPw, hcw⟩ := Matches_star_class a P ha _ _ _ _ h2
  exact ⟨x, w, by rw [hx, hw]; rfl, hP, hPw, by rw [hcw, hc]⟩

theorem Matches_space_inv (s : List Char) (c : Caps) (s1 : List Char) (c1 : Caps)
    (h : Matches .space s c s1 c1) : ∃ x, s = x :: s1 ∧ isSpace x = true ∧ c1 = c := by
  cases h with
  | space x _ _ hx => exact ⟨x, rfl, hx, rfl⟩

theorem Matches_notSpace_inv (s : List Char) (c : Caps) (s1 : List Char) (c1 : Caps)
    (h : Matches .notSpace s c s1 c1) : ∃ x, s = x :: s1 ∧ isSpace x = false ∧ c1 = c := by
  cases h with
  | notSpace x _ _ hx => exact ⟨x, rfl, hx, rfl⟩

theorem Matches_notLit_inv (y : Char) (s : List Char) (c : Caps) (s1 : List Char) (c1 : Caps)
    (h : Matches (.notLit y) s c s1 c1) : ∃ x, s = x :: s1 ∧ x ≠ y ∧ c1 = c := by
  cases h with
  | notLit _ x _ _ hx => exact ⟨x, rfl, hx, rfl⟩

theorem Matches_dot_inv (s : List Char) (c : Caps) (s1 : List Char) (c1 : Caps)
    (h : Matches .dot s c s1 c1) : ∃ x, s = x :: s1 ∧ x ≠ '\n' ∧ c1 = c := by
  cases h with
  | dot x _ _ hx => exact ⟨x, rfl, hx, rfl⟩

theorem take_matched (w s1 : List Char) : (w ++ s1).take ((w ++ s1).length - s1.length) = w := by
  simp

/-- A match of a quoted identifier: a back quote, the name without a back
quote, a back quote; the name is the capture. -/
theorem Matches_quotedName (i : Nat) (s : List Char) (c : Caps) (s1 : List Char) (c1 : Caps)
    (h : Matches (quotedName i) s c s1 c1) :
    ∃ g, s = backquote :: (g ++ backquote :: s1) ∧ (∀ x ∈ g, x ≠ backquote) ∧
      c1 = (i, g) :: c := by
  unfold quotedName at h
  obtain ⟨s2, c2, h1, h⟩ := Matches_seq_inv _ _ _ _ _ _ h
  obtain ⟨s3, c3, h2, h3⟩ := Matches_seq_inv _ _ _ _ _ _ h
  obtain ⟨e1, e2⟩ := Matches_lit_inv _ _ _ _ _ h1
  obtain ⟨e3, e4⟩ := Matches_lit_inv _ _ _ _ _ h3
  obtain ⟨c0, hg, e5⟩ := Matches_group_inv _ _ _ _ _ _ h2
  obtain ⟨x, w, hw, hx, hPw, e6⟩ :=
    Matches_plus_class _ (fun x => x ≠ backquote) (Matches_notLit_inv backquote) _ _ _ _ hg
  subst e2 e4 e6
  rw [hw, take_matched] at e5
  refine ⟨x :: w, by rw [e1, hw, e3], ?_, e5⟩
  intro z hz
  rcases List.mem_cons.1 hz with hz | hz
  · rw [hz]; exact hx
  · exact hPw z hz

theorem Matches_opt_inv (a : Regex) (s : List Char) (c : Caps) (s1 : List Char) (c1 : Caps)
    (h : Matches (.opt a) s c s1 c1) : Matches a s c s1 c1 ∨ (s1 = s ∧ c1 = c) := by
  cases h with
  | optSome _ _ _ _ _ ha => exact Or.inl ha
  | optNone _ _ _ => exact Or.inr ⟨rfl, rfl⟩

theorem Matches_alt_inv (a b : Regex) (s : List Char) (c : Caps) (s1 : List Char) (c1 : Caps)
    (h : Matches (.alt a b) s c s1 c1) : Matches a s c s1 c1 ∨ Matches b s c s1 c1 := by
  cases h with
  | altLeft _ _ _ _ _ _ ha => exact Or.inl ha
  | altRight _ _ _ _ _ _ hb => exact Or.inr hb

theorem capture_cons_same (i : Nat) (t : List Char) (c : Caps) :
    capture ((i, t) :: c) i = String.mk t := by
  unfold capture
  simp [List.find?]

/-- The shape of a match of the pattern `fieldDef`: the quoted name, white
space, the datatype without white space, white space, the text of group 3,
white space, NOT NULL or nothing, white space, and the token that ends the
match: a comma, AUTO_INCREMENT, or a text that starts with DEFAULT. Groups 3
and 4 are captured as they stand in the line. -/
theorem fieldDef_shape (s s1 : List Char) (c1 : Caps)
    (h : Matches p.fieldDef.body s [] s1 c1) :
    ∃ g1 ws1 x g2 ws2 g3 ws3 g4 ws4 g5,
      s = backquote :: (g1 ++ backquote :: (ws1 ++ (x :: g2 ++
        (ws2 ++ (g3 ++ (ws3 ++ (g4 ++ (ws4 ++ (g5 ++ s1))))))))) ∧
      (∀ z ∈ g1, z ≠ backquote) ∧ (∀ z ∈ ws1, isSpace z = true) ∧
      isSpace x = false ∧ (∀ z ∈ g2, isSpace z = false) ∧
      (∀ z ∈ ws2, isSpace z = true) ∧ (∀ z ∈ ws3, isSpace z = true) ∧
      (∀ z ∈ ws4, isSpace z = true) ∧
      (g4 = [] ∨ g4 = "NOT NULL".toList) ∧
      (g5 = [','] ∨ g5 = "AUTO_INCREMENT".toList ∨ ∃ t, g5 = "DEFAULT".toList ++ t) ∧
      capture c1 3 = String.mk g3 ∧ capture c1 4 = String.mk g4 := by
  unfold p at h
  simp only at h
  obtain ⟨sA, cA, hq, h⟩ := Matches_seq_inv _ _ _ _ _ _ h
  obtain ⟨sB, cB, hws1, h⟩ := Matches_seq_inv _ _ _ _ _ _ h
  obtain ⟨sC, cC, hg2, h⟩ := Matches_seq_inv _ _ _ _ _ _ h
  obtain ⟨sD, cD, hws2, h⟩ := Matches_seq_inv _ _ _ _ _ _ h
  obtain ⟨sE, cE, hg3, h⟩ := Matches_seq_inv _ _ _ _ _ _ h
  obtain ⟨sF, cF, hws3, h⟩ := Matches_seq_inv _ _ _ _ _ _ h
  obtain ⟨sG, cG, hg4, h⟩ := Matches_seq_inv _ _ _ _ _ _ h
  obtain ⟨sH, cH, hws4, hg5⟩ := Matches_seq_inv _ _ _ _ _ _ h
  obtain ⟨g1, e1, hg1, e1c⟩ := Matches_quotedName 1 _ _ _ _ hq
  obtain ⟨y, w1, e2, hy, hw1, e2c⟩ :=
    Matches_plus_class _ (fun z => isSpace z = true) Matches_space_inv _ _ _ _ hws1
  obtain ⟨c2, hg2, e3c⟩ := Matches_group_inv _ _ _ _ _ _ hg2
  obtain ⟨x, g2, e3, hx, hg2P, e3d⟩ :=
    Matches_plus_class _ (fun z => isSpace z = false) Matches_notSpace_inv _ _ _ _ hg2
  obtain ⟨ws2, e4, hws2P, e4c⟩ :=
    Matches_star_class _ (fun z => isSpace z = true) Matches_space_inv _ _ _ _ hws2
  obtain ⟨c3, hg3, e5c⟩ := Matches_group_inv _ _ _ _ _ _ hg3
  obtain ⟨g3, e5, _, e5d⟩ :=
    Matches_lazyStar_class _ (fun z => z ≠ '\n') Matches_dot_inv _ _ _ _ hg3
  rw [e5, take_matched] at e5c
  obtain ⟨ws3, e6, hws3P, e6c⟩ :=
    Matches_star_class _ (fun z => isSpace z = true) Matches_space_inv _ _ _ _ hws3
  obtain ⟨ws4, e8, hws4P, e8c⟩ :=
    Matches_star_class _ (fun z => isSpace z = true) Matches_space_inv _ _ _ _ hws4
  have hcapF3 : capture cF 3 = String.mk g3 := by
    rw [e6c, e5c]
    exact capture_cons_same 3 g3 _
  -- the optional NOT NULL
  have h4 : ∃ g4, sF = g4 ++ sG ∧ (g4 = [] ∨ g4 = "NOT NULL".toList) ∧
      capture cG 3 = String.mk g3 ∧ capture cG 4 = String.mk g4 := by
    rcases Matches_opt_inv _ _ _ _ _ hg4 with hsome | hnone
    · obtain ⟨c4, ht, ec⟩ := Matches_group_inv _ _ _ _ _ _ hsome
      obtain ⟨et, ec4⟩ := Matches_text _ _ _ _ _ ht
      rw [et, take_matched] at ec
      refine ⟨"NOT NULL".toList, et, Or.inr rfl, ?_, ?_⟩
      · rw [ec, capture_cons_ne 3 4 _ _ (by decide), ec4]
        exact hcapF3
      · rw [ec]
        exact capture_cons_same 4 _ _
    · refine ⟨[], by rw [hnone.1]; rfl, Or.inl rfl, ?_, ?_⟩
      · rw [hnone.2]
        exact hcapF3
      · rw [hnone.2, e6c, e5c, capture_cons_ne 4 3 _ _ (by decide), e5d, e4c, e3c,
          capture_cons_ne 4 2 _ _ (by decide), e3d, e2c, e1c,
          capture_cons_ne 4 1 _ _ (by decide)]
        rfl
  obtain ⟨g4, e7, hg4P, hcapG3, hcapG4⟩ := h4
  -- the token that ends the match
  obtain ⟨c5, halt, e9c⟩ := Matches_group_inv _ _ _ _ _ _ hg5
  have hcap3 : capture c1 3 = String.mk g3 := by
    rw [e9c, capture_cons_ne 3 5 _ _ (by decide), Matches_capture 3 _ _ _ _ _ halt rfl, e8c]
    exact hcapG3
  have hcap4 : capture c1 4 = String.mk g4 := by
    rw [e9c, capture_cons_ne 4 5 _ _ (by decide), Matches_capture 4 _ _ _ _ _ halt rfl, e8c]
    exact hcapG4
  have h5 : ∃ g5, sH = g5 ++ s1 ∧
      (g5 = [','] ∨ g5 = "AUTO_INCREMENT".toList ∨ ∃ t, g5 = "DEFAULT".toList ++ t) := by
    rcases Matches_alt_inv _ _ _ _ _ _ halt with hl | hr
    · obtain ⟨s2, c6, ht, hrest⟩ := Matches_seq_inv _ _ _ _ _ _ hl
      obtain ⟨et, _⟩ := Matches_text _ _ _ _ _ ht
      obtain ⟨t, ht2⟩ := Matches_suffix _ _ _ _ _ hrest
      exact ⟨"DEFAULT".toList ++ t, by rw [et, ht2, List.append_assoc],
        Or.inr (Or.inr ⟨t, rfl⟩)⟩
    · rcases Matches_alt_inv _ _ _ _ _ _ hr with hl | hr
      · obtain ⟨et, _⟩ := Matches_text _ _ _ _ _ hl
        exact ⟨"AUTO_INCREMENT".toList, et, Or.inr (Or.inl rfl)⟩
      · obtain ⟨et, _⟩ := Matches_lit_inv _ _ _ _ _ hr
        exact ⟨[','], et, Or.inl rfl⟩
  obtain ⟨g5, e9, hg5P⟩ := h5
  refine ⟨g1, y :: w1, x, g2, ws2, g3, ws3, g4, ws4, g5, ?_, hg1, ?_, hx, hg2P, hws2P, hws3P,
    hws4P, hg4P, hg5P, hcap3, hcap4⟩
  · rw [e1, e2, e3, e4, e5, e6, e7, e8, e9]
  · intro z hz
    rcases List.mem_cons.1 hz with hz | hz
    · rw [hz]; exact hy
    · exact hw1 z hz

/-- The last character of a non-empty end of a text is the last character of
the text. -/
theorem last_mem_of_append (A a X : List Char) (y : Char) (ha : a ≠ [])
    (h : A ++ a = X ++ [y]) : y ∈ a := by
  have hrev : a.reverse ++ A.reverse = y :: X.reverse := by
    have := congrArg List.reverse h
    simpa using this
  cases hr : a.reverse with
  | nil => exact absurd (List.reverse_eq_nil_iff.1 hr) ha
  | cons z zs =>
    rw [hr] at hrev
    simp only [List.cons_append, List.cons.injEq] at hrev
    have hz : z ∈ a.reverse := by rw [hr]; exact List.mem_cons_self _ _
    rw [← hrev.1]
    exact List.mem_reverse.1 hz

/-- In a match of the pattern `fieldDef` on a line without DEFAULT, a NOT NULL
that stands after the datatype, before any comma and any AUTO_INCREMENT, is
the text of group 4 or lies in the text of group 3. -/
theorem fieldDef_not_null (s s1 : List Char) (c1 : Caps)
    (hm : Matches p.fieldDef.body s [] s1 c1)
    (hnd : containsChars "DEFAULT".toList s = false)
    (n S W M rest : List Char) (sp : Char)
    (hs : s = backquote :: (n ++ backquote ::
      (S ++ (W ++ sp :: (M ++ ("NOT NULL".toList ++ rest))))))
    (hn : ∀ z ∈ n, z ≠ backquote) (hS : ∀ z ∈ S, isSpace z = true)
    (hW0 : W ≠ []) (hW : ∀ z ∈ W, isSpace z = false) (hsp : isSpace sp = true)
    (hcomma : ∀ z ∈ W ++ M, z ≠ ',')
    (hai : containsChars "AUTO_INCREMENT".toList (W ++ sp :: (M ++ "NOT NULL".toList))
      = false) :
    containsChars "NOT NULL".toList (capture c1 3).toList = true ∨
      capture c1 4 = "NOT NULL" := by
  obtain ⟨g1, ws1, x, g2, ws2, g3, ws3, g4, ws4, g5, e0, hg1, hws1, hx, hg2, hws2, hws3, hws4,
    hg4, hg5, hc3, hc4⟩ := fieldDef_shape s s1 c1 hm
  rw [hc3, hc4]
  rcases hg4 with hg4 | hg4
  swap
  · right
    rw [hg4]
    rfl
  left
  subst hg4
  show containsChars "NOT NULL".toList g3 = true
  have e := e0
  rw [hs] at e
  simp only [List.cons.injEq, true_and] at e
  obtain ⟨_, e⟩ := append_first_outside (fun z => z ≠ backquote) n g1 _ _ backquote backquote
    hn (by simp) hg1 (by simp) e
  simp only [List.cons.injEq, true_and] at e
  cases W with
  | nil => exact absurd rfl hW0
  | cons w W =>
    have hw : isSpace w = false := hW w (List.mem_cons_self _ _)
    obtain ⟨_, e⟩ := append_first_outside (fun z => isSpace z = true) S ws1 _ _ w x
      hS (by simp [hw]) hws1 (by simp [hx]) e
    have hxg : ∀ z ∈ x :: g2, isSpace z = false := by
      intro z hz
      rcases List.mem_cons.1 hz with hz | hz
      · rw [hz]; exact hx
      · exact hg2 z hz
    obtain ⟨W1, eW, e⟩ := append_split_class (fun z => isSpace z = false) (x :: g2) (w :: W)
      _ _ sp hxg (by simp [hsp]) e.symm
    -- the text between the datatype and the token that ends the match
    have e1 : (ws2 ++ (g3 ++ (ws3 ++ ws4))) ++ (g5 ++ s1)
        = ((W1 ++ sp :: M) ++ "NOT NULL".toList) ++ rest := by
      simpa [List.append_assoc] using e
    have hZ : ∀ z ∈ (W1 ++ sp :: M) ++ "NOT NULL".toList, z ≠ ',' := by
      intro z hz
      rcases List.mem_append.1 hz with hz | hz
      · rcases List.mem_append.1 hz with hz | hz
        · exact hcomma z (List.mem_append.2 (Or.inl (by rw [eW]; exact List.mem_append.2 (Or.inr hz))))
        · rcases List.mem_cons.1 hz with hz | hz
          · rw [hz]
            intro hc
            rw [hc] at hsp
            exact absurd hsp (by decide)
          · exact hcomma z (List.mem_append.2 (Or.inr hz))
      · exact (by decide : ∀ z ∈ "NOT NULL".toList, z ≠ ',') z hz
    have hA : ∃ b1, ws2 ++ (g3 ++ (ws3 ++ ws4))
        = ((W1 ++ sp :: M) ++ "NOT NULL".toList) ++ b1 := by
      rcases hg5 with h5 | h5 | ⟨t, h5⟩
      · rw [h5] at e1
        obtain ⟨b1, hb1, _⟩ := append_split_class (fun z => z ≠ ',') _ _ _ _ ','
          hZ (by simp) e1.symm
        exact ⟨b1, hb1⟩
      · rw [h5] at e1
        rcases List.append_eq_append_iff.1 e1 with ⟨a1, ha1, ha2⟩ | ⟨a1, ha1, ha2⟩
        · by_cases hnil : a1 = []
          · subst hnil
            exact ⟨[], by rw [ha1]; simp⟩
          · exfalso
            rcases List.append_eq_append_iff.1 ha2 with ⟨d, hd1, hd2⟩ | ⟨d, hd1, hd2⟩
            · have hc : containsChars "AUTO_INCREMENT".toList
                  ((w :: W) ++ sp :: (M ++ "NOT NULL".toList)) = true := by
                have hh : (w :: W) ++ sp :: (M ++ "NOT NULL".toList)
                    = ((x :: g2) ++ (ws2 ++ (g3 ++ (ws3 ++ ws4))))
                      ++ ("AUTO_INCREMENT".toList ++ d) := by
                  rw [eW, List.append_assoc, List.append_assoc]
                  have h2 : W1 ++ sp :: (M ++ "NOT NULL".toList)
                      = (W1 ++ sp :: M) ++ "NOT NULL".toList := by simp
                  rw [h2, ha1, hd1]
                rw [hh]
                exact containsChars_mid _ _ _
              rw [hc] at hai
              cases hai
            · have hl : 'L' ∈ a1 :=
                last_mem_of_append (ws2 ++ (g3 ++ (ws3 ++ ws4))) a1
                  ((W1 ++ sp :: M) ++ "NOT NUL".toList) 'L' hnil
                  (by rw [← ha1]; exact (List.append_assoc _ "NOT NUL".toList ['L']).symm)
              have hl2 : 'L' ∈ "AUTO_INCREMENT".toList := by
                rw [hd1]
                exact List.mem_append.2 (Or.inl hl)
              exact absurd hl2 (by decide)
        · exact ⟨a1, ha1⟩
      · exfalso
        have hc : containsChars "DEFAULT".toList s = true := by
          rw [e0, h5]
          have : backquote :: (g1 ++ backquote :: (ws1 ++ (x :: g2 ++ (ws2 ++ (g3 ++ (ws3 ++
              ([] ++ (ws4 ++ (("DEFAULT".toList ++ t) ++ s1)))))))))
              = (backquote :: (g1 ++ backquote :: (ws1 ++ (x :: g2 ++ (ws2 ++ (g3 ++ (ws3 ++
                ws4))))))) ++ ("DEFAULT".toList ++ (t ++ s1)) := by
            simp [List.append_assoc]
          rw [this]
          exact containsChars_mid _ _ _
        rw [hc] at hnd
        cases hnd
    obtain ⟨b1, hA⟩ := hA
    have hA1 : ws2 ++ (g3 ++ (ws3 ++ ws4))
        = (W1 ++ sp :: M) ++ 'N' :: ("OT NULL".toList ++ b1) := by
      rw [hA, List.append_assoc]
      rfl
    obtain ⟨Z1, _, e2⟩ := append_split_class (fun z => isSpace z = true) ws2 (W1 ++ sp :: M)
      _ _ 'N' hws2 (by decide) hA1
    have e3 : g3 ++ (ws3 ++ ws4) = (Z1 ++ "NOT NUL".toList) ++ 'L' :: b1 := by
      rw [e2, List.append_assoc]
      rfl
    have hws34 : ∀ z ∈ ws3 ++ ws4, isSpace z = true := by
      intro z hz
      rcases List.mem_append.1 hz with hz | hz
      · exact hws3 z hz
      · exact hws4 z hz
    obtain ⟨b2, _, e4⟩ := append_split_class_end (fun z => isSpace z = true) (ws3 ++ ws4) b1
      g3 (Z1 ++ "NOT NUL".toList) 'L' hws34 (by decide) e3
    have e5 : g3 = Z1 ++ ("NOT NULL".toList ++ b2) := by
      rw [e4, List.append_assoc]
      rfl
    rw [e5]
    exact containsChars_mid _ _ _

theorem startsWith_append_right (sub : List Char) :
    ∀ (s t : List Char), startsWith sub s = true → startsWith sub (s ++ t) = true := by
  induction sub with
  | nil => intro s t _; rfl
  | cons x xs ih =>
    intro s t hs
    cases s with
    | nil => cases hs
    | cons c cs =>
      simp only [startsWith, Bool.and_eq_true, decide_eq_true_eq] at hs
      simp only [List.cons_append, startsWith, Bool.and_eq_true, decide_eq_true_eq]
      exact ⟨hs.1, ih cs t hs.2⟩

theorem containsChars_append_right (sub : List Char) :
    ∀ (s t : List Char), containsChars sub s = true → containsChars sub (s ++ t) = true := by
  intro s
  induction s with
  | nil =>
    intro t hs
    exact containsChars_of_startsWith sub _ (startsWith_append_right sub [] t hs)
  | cons c cs ih =>
    intro t hs
    simp only [containsChars, Bool.or_eq_true] at hs
    simp only [List.cons_append, containsChars, Bool.or_eq_true]
    rcases hs with h1 | h1
    · exact Or.inl (startsWith_append_right sub (c :: cs) t h1)
    · exact Or.inr (ih t h1)

/-- The attribute text has every text of the third group in it. -/
theorem attributes_group3 (a b c d e f g sub : String) (h : Contains d sub = true) :
    Contains (" ".intercalate ([a, b, c, d, e, f, g].drop 3)) sub = true := by
  unfold Contains at h ⊢
  have hj : (" ".intercalate ([a, b, c, d, e, f, g].drop 3)).toList
      = d.toList ++ (' ' :: (e.toList ++ (' ' :: (f.toList ++ (' ' :: g.toList))))) := by
    simp [String.intercalate, String.intercalate.go, String.toList]
  rw [hj]
  exact containsChars_append_right _ _ _ h

/-- When `FindStringSubmatch` of `fieldDef` gives seven texts, they are the
whole match and the six captures of a match of the pattern on the line. -/
theorem fieldDef_groups (fStmt : String)
    (hlen : (p.fieldDef.FindStringSubmatch fStmt).length = 7) :
    ∃ s1 c1 m0, Matches p.fieldDef.body fStmt.toList [] s1 c1 ∧
      p.fieldDef.FindStringSubmatch fStmt
        = [m0, capture c1 1, capture c1 2, capture c1 3, capture c1 4, capture c1 5,
            capture c1 6] := by
  rw [FindStringSubmatch_anchored p.fieldDef rfl] at hlen ⊢
  unfold Regexp.matchHere at hlen ⊢
  cases hr : p.fieldDef.body.run fStmt.toList [] (fun rest caps => some (rest, caps)) with
  | none =>
    rw [hr] at hlen
    cases hlen
  | some r =>
    obtain ⟨rest, caps⟩ := r
    obtain ⟨s1, c1, hm, hk⟩ := run_sound p.fieldDef.body _ _ _ _ hr
    simp only [Option.some.injEq, Prod.mk.injEq] at hk
    obtain ⟨h1, h2⟩ := hk
    subst h1
    subst h2
    exact ⟨s1, c1, _, hm, rfl⟩

/-- C11, amended: for every line without the word DEFAULT on which
`NewFieldFromString` succeeds, the default value of the field is empty; and
the field is not nullable when the line reads: the quoted name, white space,
the datatype (characters other than white space), a white-space character,
any text, and NOT NULL, with no comma and no AUTO_INCREMENT from the datatype
to the end of that NOT NULL. -/
theorem C11_not_null_before_comma_and_auto_increment (fStmt : String) (f : Field)
    (e : Option String) (hok : NewFieldFromString fStmt = .ret (some f) e)
    (hnd : Contains fStmt "DEFAULT" = false) :
    f.DefaultValue = "" ∧
    ∀ (n S W M rest : List Char) (sp : Char),
      fStmt.toList = backquote :: (n ++ backquote ::
        (S ++ (W ++ sp :: (M ++ ("NOT NULL".toList ++ rest))))) →
      (∀ z ∈ n, z ≠ backquote) → (∀ z ∈ S, isSpace z = true) →
      W ≠ [] → (∀ z ∈ W, isSpace z = false) → isSpace sp = true →
      (∀ z ∈ W ++ M, z ≠ ',') →
      containsChars "AUTO_INCREMENT".toList (W ++ sp :: (M ++ "NOT NULL".toList)) = false →
      f.Nullable = false := by
  unfold NewFieldFromString at hok
  simp only at hok
  split at hok
  · cases hok
  · rename_i hlen
    simp only [ne_eq, Decidable.not_not] at hlen
    simp only [Result.ret.injEq, Option.some.injEq] at hok
    obtain ⟨hf, _⟩ := hok
    subst hf
    refine ⟨?_, ?_⟩
    · by_cases h6 : (p.fieldDef.FindStringSubmatch fStmt).getD 6 "" = ""
      · simp only [h6, ite_self]
      · rw [fieldDef_group6 fStmt h6] at hnd
        cases hnd
    · intro n S W M rest sp hs hn hS hW0 hW hsp hcomma hai
      obtain ⟨s1, c1, m0, hm, hfind⟩ := fieldDef_groups fStmt hlen
      have hnn := fieldDef_not_null fStmt.toList s1 c1 hm hnd n S W M rest sp hs hn hS hW0 hW
        hsp hcomma hai
      have hc : Contains (" ".intercalate ((p.fieldDef.FindStringSubmatch fStmt).drop 3))
          "NOT NULL" = true := by
        rw [hfind]
        rcases hnn with h3 | h4
        · exact attributes_group3 _ _ _ _ _ _ _ "NOT NULL" h3
        · have h := attributes_group4 m0 (capture c1 1) (capture c1 2) (capture c1 3)
            (capture c1 4) (capture c1 5) (capture c1 6)
          rw [h4] at h ⊢
          exact h
      simp only
      rw [notNull_of_attributes _ hc]
      rfl

/-- C11, witness: an unsigned auto-increment column whose NOT NULL stands
before AUTO_INCREMENT and the comma. -/
theorem C11_not_null_before_comma_and_auto_increment_witness :
    Contains "`id` int(11) unsigned NOT NULL AUTO_INCREMENT," "DEFAULT" = false ∧
    "`id` int(11) unsigned NOT NULL AUTO_INCREMENT,".toList
      = backquote :: ("id".toList ++ backquote :: ([' '] ++ ("int(11)".toList ++ ' ' ::
          ("unsigned ".toList ++ ("NOT NULL".toList ++ " AUTO_INCREMENT,".toList))))) ∧
    ∃ f, NewFieldFromString "`id` int(11) unsigned NOT NULL AUTO_INCREMENT," = .ret (some f) none ∧
      f.DefaultValue = "" ∧ f.Nullable = false :=
  ⟨by decide, by decide,
    { Name := "id", Datatype := "int(11)", DefaultValue := "",
      Attributes := "unsigned NOT NULL AUTO_INCREMENT ", Nullable := false,
      AutoIncrement := true, IsPK := false, Signed := false },
    by decide,
    (C11_not_null_before_comma_and_auto_increment
      "`id` int(11) unsigned NOT NULL AUTO_INCREMENT," _ none (by decide) (by decide)).1,
    (C11_not_null_before_comma_and_auto_increment
      "`id` int(11) unsigned NOT NULL AUTO_INCREMENT," _ none (by decide) (by decide)).2
      "id".toList [' '] "int(11)".toList "unsigned ".toList " AUTO_INCREMENT,".toList ' '
      (by decide) (by decide) (by decide) (by decide) (by decide) (by decide) (by decide)
      (by decide)⟩

/-! ## The integrity check when every target field is there -/

end DbDiff
